import Mathlib

/-!
Formal model of the crystallographic index-conversion utilities and of the
free-surface rotation-basis solver described by the atomman tutorial
material.  The repository ships only the tutorial notebooks, so the library
routines themselves are modelled from the specification, with exact rational
arithmetic standing in for the floating-point arithmetic of the original
(the specification's "within floating tolerance" becomes exact equality).
-/

namespace Atomman

/-- Vector with three components, used both for Miller (hkl) planes and
[uvw] direction indices (over ℤ) and for Cartesian vectors (over ℚ). -/
structure Vec3 (α : Type) where
  x : α
  y : α
  z : α
deriving DecidableEq, Repr

/-- Vector with four components, for Miller-Bravais [uvtw] direction indices. -/
structure Vec4 (α : Type) where
  u : α
  v : α
  t : α
  w : α
deriving DecidableEq, Repr

def Vec3.add {α : Type} [Add α] (p q : Vec3 α) : Vec3 α :=
  ⟨p.x + q.x, p.y + q.y, p.z + q.z⟩

def Vec3.neg {α : Type} [Neg α] (p : Vec3 α) : Vec3 α :=
  ⟨-p.x, -p.y, -p.z⟩

def Vec3.sub {α : Type} [Sub α] (p q : Vec3 α) : Vec3 α :=
  ⟨p.x - q.x, p.y - q.y, p.z - q.z⟩

def Vec3.smul {α : Type} [Mul α] (c : α) (p : Vec3 α) : Vec3 α :=
  ⟨c * p.x, c * p.y, c * p.z⟩

def Vec3.dot {α : Type} [Mul α] [Add α] (p q : Vec3 α) : α :=
  p.x * q.x + p.y * q.y + p.z * q.z

def Vec3.cross {α : Type} [Mul α] [Sub α] (p q : Vec3 α) : Vec3 α :=
  ⟨p.y * q.z - p.z * q.y, p.z * q.x - p.x * q.z, p.x * q.y - p.y * q.x⟩

/-- Scalar triple product of three vectors. -/
def Vec3.triple {α : Type} [Mul α] [Add α] [Sub α] (p q r : Vec3 α) : α :=
  Vec3.dot p (Vec3.cross q r)

/-- Cast an integer index vector to a rational vector. -/
def Vec3.toRat (p : Vec3 ℤ) : Vec3 ℚ :=
  ⟨(p.x : ℚ), (p.y : ℚ), (p.z : ℚ)⟩

/-- Lattice: a 3x3 matrix whose rows are the unit-cell edge vectors. -/
structure Mat3 where
  r0 : Vec3 ℚ
  r1 : Vec3 ℚ
  r2 : Vec3 ℚ
deriving DecidableEq, Repr

def Mat3.det (L : Mat3) : ℚ :=
  Vec3.triple L.r0 L.r1 L.r2

/-- Row-vector action: maps a [uvw] direction to the Cartesian vector
u * a + v * b + w * c built from the lattice rows. -/
def Mat3.rowApply (L : Mat3) (p : Vec3 ℚ) : Vec3 ℚ :=
  Vec3.add (Vec3.smul p.x L.r0) (Vec3.add (Vec3.smul p.y L.r1) (Vec3.smul p.z L.r2))

/-- Column action: component i of the result is the dot of row i with the input.
Used for the reciprocal-space (plane-index) transformations. -/
def Mat3.colApply (L : Mat3) (p : Vec3 ℚ) : Vec3 ℚ :=
  ⟨Vec3.dot L.r0 p, Vec3.dot L.r1 p, Vec3.dot L.r2 p⟩

def Mat3.identity : Mat3 :=
  ⟨⟨1, 0, 0⟩, ⟨0, 1, 0⟩, ⟨0, 0, 1⟩⟩

/-- Multiply a rational by an integer known to clear its denominator,
staying in integer arithmetic. -/
def scaleToInt (q : ℚ) (d : ℤ) : ℤ :=
  q.num * (d / (q.den : ℤ))

/-- Common denominator of the three components of a rational vector. -/
def ratDen3 (v : Vec3 ℚ) : ℕ :=
  Nat.lcm (Nat.lcm v.x.den v.y.den) v.z.den

/-- Integer vector obtained by scaling a rational vector by d. -/
def intVec (v : Vec3 ℚ) (d : ℤ) : Vec3 ℤ :=
  ⟨scaleToInt v.x d, scaleToInt v.y d, scaleToInt v.z d⟩

/-- Common denominator of all entries of the lattice matrix. -/
def Mat3.den (L : Mat3) : ℕ :=
  Nat.lcm (Nat.lcm (ratDen3 L.r0) (ratDen3 L.r1)) (ratDen3 L.r2)

/-- Integer-scaled lattice rows: den * r0, den * r1, den * r2. -/
def Mat3.ir0 (L : Mat3) : Vec3 ℤ :=
  intVec L.r0 (L.den : ℤ)

def Mat3.ir1 (L : Mat3) : Vec3 ℤ :=
  intVec L.r1 (L.den : ℤ)

def Mat3.ir2 (L : Mat3) : Vec3 ℤ :=
  intVec L.r2 (L.den : ℤ)

/-- Integer-scaled Cartesian image of an integer direction: den times the
true Cartesian vector. -/
def cartInt (L : Mat3) (p : Vec3 ℤ) : Vec3 ℤ :=
  Vec3.add (Vec3.smul p.x L.ir0) (Vec3.add (Vec3.smul p.y L.ir1) (Vec3.smul p.z L.ir2))

/-- Integer-scaled squared Cartesian length (den^2 times the true one);
the scaling is the same for all candidates, so length comparisons are
unchanged. -/
def len2Int (L : Mat3) (p : Vec3 ℤ) : ℤ :=
  Vec3.dot (cartInt L p) (cartInt L p)

/-- Integer-scaled determinant of the lattice (den^3 times the true one). -/
def Mat3.detInt (L : Mat3) : ℤ :=
  Vec3.triple L.ir0 L.ir1 L.ir2

/-- Integer-scaled reciprocal combination h (r1 x r2) + k (r2 x r0) +
l (r0 x r1): den^2 times the rational one, hence det times den^5 times
the true plane normal. -/
def wInt (L : Mat3) (hkl : Vec3 ℤ) : Vec3 ℤ :=
  Vec3.add (Vec3.smul hkl.x (Vec3.cross L.ir1 L.ir2))
    (Vec3.add (Vec3.smul hkl.y (Vec3.cross L.ir2 L.ir0))
      (Vec3.smul hkl.z (Vec3.cross L.ir0 L.ir1)))

/-- Cubic lattice with edge length s; `cubeBox 1` is the default unit box. -/
def cubeBox (s : ℚ) : Mat3 :=
  ⟨⟨s, 0, 0⟩, ⟨0, s, 0⟩, ⟨0, 0, s⟩⟩

/-- Error raised on malformed index length or a degenerate (all-zero) plane. -/
inductive MillerError
  | invalidIndexError
deriving DecidableEq, Repr

/-- Modelled from the spec: `vector3to4` (threeToFourIndex) expands a
3-index direction [u,v,w] to the Miller-Bravais direction [u1,v1,t,w] with
u1 = (2u-v)/3, v1 = (2v-u)/3, t = -(u1+v1), w unchanged, without rescaling
the result to smallest integers. -/
def vector3to4 (p : Vec3 ℚ) : Vec4 ℚ :=
  ⟨(2 * p.x - p.y) / 3, (2 * p.y - p.x) / 3,
   -((2 * p.x - p.y) / 3 + (2 * p.y - p.x) / 3), p.z⟩

/-- Modelled from the spec: `vector4to3` (fourToThreeIndex) maps the
Miller-Bravais direction [u,v,t,w] back to [2u+v, u+2v, w]. -/
def vector4to3 (p : Vec4 ℚ) : Vec3 ℚ :=
  ⟨2 * p.u + p.v, p.u + 2 * p.v, p.w⟩

/-- Modelled from the spec: list-level `vector3to4`, which fails with an
InvalidIndexError whenever the input does not have exactly three entries. -/
def vector3to4_list (l : List ℚ) : Except MillerError (List ℚ) :=
  match l with
  | [u, v, w] =>
      let r := vector3to4 ⟨u, v, w⟩
      Except.ok [r.u, r.v, r.t, r.w]
  | _ => Except.error MillerError.invalidIndexError

/-- Modelled from the spec: list-level `vector4to3`, accepting length-4
input only. -/
def vector4to3_list (l : List ℚ) : Except MillerError (List ℚ) :=
  match l with
  | [u, v, t, w] =>
      let r := vector4to3 ⟨u, v, t, w⟩
      Except.ok [r.x, r.y, r.z]
  | _ => Except.error MillerError.invalidIndexError

/-- The six centering settings of a conventional unit cell. -/
inductive Setting
  | p
  | a
  | b
  | c
  | i
  | f
deriving DecidableEq, Repr

/-- Modelled from the spec: fixed rational matrices expressing the primitive
cell basis vectors in conventional-cell coordinates, one per centering
setting (identity for p, determinant 1/2 for the centered settings). -/
def primitiveToConventionalMat : Setting → Mat3
  | Setting.p => Mat3.identity
  | Setting.a => ⟨⟨1, 0, 0⟩, ⟨0, 1/2, 1/2⟩, ⟨0, -1/2, 1/2⟩⟩
  | Setting.b => ⟨⟨1/2, 0, 1/2⟩, ⟨0, 1, 0⟩, ⟨-1/2, 0, 1/2⟩⟩
  | Setting.c => ⟨⟨1/2, 1/2, 0⟩, ⟨-1/2, 1/2, 0⟩, ⟨0, 0, 1⟩⟩
  | Setting.i => ⟨⟨1/2, 1/2, 1/2⟩, ⟨-1/2, 1/2, -1/2⟩, ⟨-1/2, -1/2, 1/2⟩⟩
  | Setting.f => ⟨⟨0, 1/2, 1/2⟩, ⟨1/2, 0, 1/2⟩, ⟨1/2, 1/2, 0⟩⟩

/-- Modelled from the spec: the fixed inverse matrices, expressing the
conventional cell basis vectors in primitive-cell coordinates. -/
def conventionalToPrimitiveMat : Setting → Mat3
  | Setting.p => Mat3.identity
  | Setting.a => ⟨⟨1, 0, 0⟩, ⟨0, 1, -1⟩, ⟨0, 1, 1⟩⟩
  | Setting.b => ⟨⟨1, 0, -1⟩, ⟨0, 1, 0⟩, ⟨1, 0, 1⟩⟩
  | Setting.c => ⟨⟨1, -1, 0⟩, ⟨1, 1, 0⟩, ⟨0, 0, 1⟩⟩
  | Setting.i => ⟨⟨0, -1, -1⟩, ⟨1, 1, 0⟩, ⟨1, 0, 1⟩⟩
  | Setting.f => ⟨⟨-1, 1, 1⟩, ⟨1, -1, 1⟩, ⟨1, 1, -1⟩⟩

/-- Modelled from the spec: `vector_primitive_to_conventional` applies the
fixed transformation matrix for the given setting to a direction vector. -/
def vector_primitive_to_conventional (p : Vec3 ℚ) (s : Setting) : Vec3 ℚ :=
  (primitiveToConventionalMat s).rowApply p

/-- Modelled from the spec: `vector_conventional_to_primitive` applies the
fixed inverse transformation matrix for the given setting. -/
def vector_conventional_to_primitive (p : Vec3 ℚ) (s : Setting) : Vec3 ℚ :=
  (conventionalToPrimitiveMat s).rowApply p

/-- Errors of the free-surface basis solver: invalid indices (validation) or
an exhausted bounded search. -/
inductive FSError
  | invalidIndexError
  | basisSearchError
deriving DecidableEq, Repr

def lcm2 (h k : ℤ) : ℤ :=
  (Int.lcm h k : ℤ)

def lcm3 (h k l : ℤ) : ℤ :=
  lcm2 (lcm2 h k) l

/-- Modelled from the spec: the closed-form in-plane direction templates for
a plane (hkl), classified by the zero pattern of the indices; the reciprocals
of the nonzero components are scaled by their least common multiple M so the
entries are integers.  Returns none for the degenerate all-zero plane. -/
def inPlaneTemplates (hkl : Vec3 ℤ) : Option (Vec3 ℤ × Vec3 ℤ) :=
  if hkl.x = 0 ∧ hkl.y = 0 ∧ hkl.z = 0 then
    none
  else if hkl.x ≠ 0 ∧ hkl.y ≠ 0 ∧ hkl.z ≠ 0 then
    some (⟨-(lcm3 hkl.x hkl.y hkl.z / hkl.x), lcm3 hkl.x hkl.y hkl.z / hkl.y, 0⟩,
          ⟨-(lcm3 hkl.x hkl.y hkl.z / hkl.x), 0, lcm3 hkl.x hkl.y hkl.z / hkl.z⟩)
  else if hkl.x ≠ 0 ∧ hkl.y ≠ 0 then
    some (⟨-(lcm2 hkl.x hkl.y / hkl.x), lcm2 hkl.x hkl.y / hkl.y, 0⟩, ⟨0, 0, 1⟩)
  else if hkl.x ≠ 0 ∧ hkl.z ≠ 0 then
    some (⟨-(lcm2 hkl.x hkl.z / hkl.x), 0, lcm2 hkl.x hkl.z / hkl.z⟩, ⟨0, 1, 0⟩)
  else if hkl.y ≠ 0 ∧ hkl.z ≠ 0 then
    some (⟨0, -(lcm2 hkl.y hkl.z / hkl.y), lcm2 hkl.y hkl.z / hkl.z⟩, ⟨1, 0, 0⟩)
  else if hkl.x ≠ 0 then
    some (⟨0, 1, 0⟩, ⟨0, 0, 1⟩)
  else if hkl.y ≠ 0 then
    some (⟨0, 0, 1⟩, ⟨1, 0, 0⟩)
  else
    some (⟨1, 0, 0⟩, ⟨0, 1, 0⟩)

def gcd3 (p : Vec3 ℤ) : ℕ :=
  Nat.gcd (Nat.gcd p.x.natAbs p.y.natAbs) p.z.natAbs

/-- Modelled from the spec: reduce a candidate direction vector to lowest
integer terms by dividing by the greatest common divisor of its components. -/
def reduceVec (p : Vec3 ℤ) : Vec3 ℤ :=
  if (gcd3 p : ℤ) = 0 then p
  else ⟨p.x / (gcd3 p : ℤ), p.y / (gcd3 p : ℤ), p.z / (gcd3 p : ℤ)⟩

/-- Coefficient values -n..n enumerated in order of increasing magnitude:
0, 1, -1, 2, -2, ... -/
def coeffSeq (n : ℕ) : List ℤ :=
  0 :: List.flatten (List.map (fun idx => [((idx : ℤ) + 1), -((idx : ℤ) + 1)]) (List.range n))

/-- All coefficient pairs for the bounded in-plane search, lexicographic over
the increasing-magnitude coefficient order. -/
def windowPairs (n : ℕ) : List (ℤ × ℤ) :=
  List.flatten (List.map (fun j => List.map (fun k => (j, k)) (coeffSeq n)) (coeffSeq n))

/-- All candidate direction vectors with components bounded by ±n,
lexicographic over the increasing-magnitude coefficient order. -/
def windowTriples (n : ℕ) : List (Vec3 ℤ) :=
  List.flatten (List.map (fun jx =>
    List.flatten (List.map (fun jy =>
      List.map (fun jz => (⟨jx, jy, jz⟩ : Vec3 ℤ)) (coeffSeq n)) (coeffSeq n))) (coeffSeq n))

/-- Position of an integer in the increasing-magnitude enumeration
0, 1, -1, 2, -2, ... -/
def okey (z : ℤ) : ℕ :=
  if 0 < z then 2 * z.natAbs - 1 else 2 * z.natAbs

/-- Position of an integer vector in the window enumeration order. -/
def rank (n : ℕ) (v : Vec3 ℤ) : ℕ :=
  (okey v.x * (2 * n + 1) + okey v.y) * (2 * n + 1) + okey v.z

/-- Squared Cartesian length of an integer direction under the lattice. -/
def len2 (L : Mat3) (p : Vec3 ℤ) : ℚ :=
  Vec3.dot (L.rowApply p.toRat) (L.rowApply p.toRat)

/-- Integer combination of the two template vectors for a coefficient pair. -/
def combo (t1 t2 : Vec3 ℤ) (jk : ℤ × ℤ) : Vec3 ℤ :=
  Vec3.add (Vec3.smul jk.1 t1) (Vec3.smul jk.2 t2)

/-- One step of the first in-plane search: keep the incumbent unless the
candidate combination is nonzero and strictly shorter. -/
def stepA (L : Mat3) (t1 t2 : Vec3 ℤ) (best : Vec3 ℤ) (jk : ℤ × ℤ) : Vec3 ℤ :=
  if combo t1 t2 jk ≠ (⟨0, 0, 0⟩ : Vec3 ℤ) ∧ len2Int L (combo t1 t2 jk) < len2Int L best
  then combo t1 t2 jk else best

/-- Modelled from the spec: select the shortest nonzero in-plane vector among
the first template vector and the integer combinations of the two template
vectors within the bounded window; the first-found minimum is kept.  The
length comparison uses the integer-scaled squared lengths, which order
candidates exactly as the true Cartesian lengths do. -/
def selectA (L : Mat3) (t1 t2 : Vec3 ℤ) (n : ℕ) : Vec3 ℤ :=
  (windowPairs n).foldl (stepA L t1 t2) t1

/-- One step of the second in-plane search: only combinations not parallel to
the first selection compete, shortest first-found kept. -/
def stepB (L : Mat3) (a t1 t2 : Vec3 ℤ) : Option (Vec3 ℤ) → ℤ × ℤ → Option (Vec3 ℤ)
  | none, jk =>
      if Vec3.cross a (combo t1 t2 jk) ≠ (⟨0, 0, 0⟩ : Vec3 ℤ)
      then some (combo t1 t2 jk) else none
  | some b, jk =>
      if Vec3.cross a (combo t1 t2 jk) ≠ (⟨0, 0, 0⟩ : Vec3 ℤ) ∧
         len2Int L (combo t1 t2 jk) < len2Int L b
      then some (combo t1 t2 jk) else some b

/-- Modelled from the spec: select the shortest in-plane vector that is not
parallel (cross product zero) to the first selection, among the second
template vector and the bounded integer combinations. -/
def selectB (L : Mat3) (a t1 t2 : Vec3 ℤ) (n : ℕ) : Option (Vec3 ℤ) :=
  (windowPairs n).foldl (stepB L a t1 t2)
    (if Vec3.cross a t2 ≠ (⟨0, 0, 0⟩ : Vec3 ℤ) then some t2 else none)

/-- Reciprocal combination h (b x c) + k (c x a) + l (a x b) of the lattice
rows; dividing by the cell volume gives the plane normal. -/
def recipComb (L : Mat3) (hkl : Vec3 ℤ) : Vec3 ℚ :=
  Vec3.add (Vec3.smul (hkl.x : ℚ) (Vec3.cross L.r1 L.r2))
    (Vec3.add (Vec3.smul (hkl.y : ℚ) (Vec3.cross L.r2 L.r0))
      (Vec3.smul (hkl.z : ℚ) (Vec3.cross L.r0 L.r1)))

/-- Modelled from the spec: the true Cartesian plane normal computed from the
Miller indices and the lattice via the reciprocal lattice relation
n = h a* + k b* + l c*. -/
def trueNormal (L : Mat3) (hkl : Vec3 ℤ) : Vec3 ℚ :=
  Vec3.smul (1 / L.det) (recipComb L hkl)

/-- Modelled from the spec: the returned triple must form a right-handed
rotation basis, so the second in-plane vector's sign is chosen to make the
cross product of the Cartesian in-plane vectors point along the plane
normal (the tutorial examples show this sign selection).  The sign test is
an integer computation equivalent to dot (cross a b) normal < 0. -/
def orientB (L : Mat3) (hkl : Vec3 ℤ) (a b : Vec3 ℤ) : Vec3 ℤ :=
  if Vec3.dot (Vec3.cross (cartInt L a) (cartInt L b)) (wInt L hkl) * L.detInt < 0
  then Vec3.neg b else b

/-- Modelled from the spec: decide whether candidate v makes a strictly
smaller angle with the plane normal than candidate w does.  The comparison
of cosines is carried out exactly: the normal component of a candidate is
the Miller dot product and the integer-scaled squared Cartesian lengths
replace lengths, so the test compares the signed squared cosines. -/
def angleBetter (L : Mat3) (hkl : Vec3 ℤ) (v w : Vec3 ℤ) : Bool :=
  let sv : ℤ := Vec3.dot hkl v
  let sw : ℤ := Vec3.dot hkl w
  if 0 ≤ sv then
    decide (sw < 0) || decide (sv ^ 2 * len2Int L w > sw ^ 2 * len2Int L v)
  else
    decide (sw < 0) && decide (sv ^ 2 * len2Int L w < sw ^ 2 * len2Int L v)

/-- One step of the out-of-plane search: only candidates with a nonzero
component along the plane normal compete; a strictly smaller angle to the
normal replaces the incumbent. -/
def stepC (L : Mat3) (hkl : Vec3 ℤ) : Option (Vec3 ℤ) → Vec3 ℤ → Option (Vec3 ℤ)
  | none, cand => if Vec3.dot hkl cand ≠ 0 then some cand else none
  | some b, cand =>
      if Vec3.dot hkl cand ≠ 0 ∧ angleBetter L hkl cand b
      then some cand else some b

/-- Modelled from the spec: select the out-of-plane vector: among integer
vectors with components bounded by ±n that are not coplanar with the two
in-plane vectors (nonzero component along the plane normal), choose the one
whose Cartesian direction makes the smallest angle with the true plane
normal; ties keep the first-found candidate. -/
def selectC (L : Mat3) (hkl : Vec3 ℤ) (n : ℕ) : Option (Vec3 ℤ) :=
  (windowTriples n).foldl (stepC L hkl) none

/-- Signed squared cosine of the angle between a candidate direction and the
plane normal (times the positive constant normsq of the normal): the
quantity that angleBetter compares. -/
def cosRank (L : Mat3) (hkl : Vec3 ℤ) (v : Vec3 ℤ) : ℚ :=
  if 0 ≤ Vec3.dot hkl v then
    ((Vec3.dot hkl v : ℤ) : ℚ) ^ 2 / ((len2Int L v : ℤ) : ℚ)
  else
    -(((Vec3.dot hkl v : ℤ) : ℚ) ^ 2 / ((len2Int L v : ℤ) : ℚ))

def maxAbs3 (p : Vec3 ℤ) : ℕ :=
  max (max p.x.natAbs p.y.natAbs) p.z.natAbs

/-- Modelled from the spec: the automatic search window is the largest
absolute index appearing in the plane or in the reduced initial templates. -/
def autoWindow (hkl : Vec3 ℤ) : ℕ :=
  match inPlaneTemplates hkl with
  | none => 0
  | some t12 =>
      max (maxAbs3 hkl) (max (maxAbs3 (reduceVec t12.1)) (maxAbs3 (reduceVec t12.2)))

/-- Search window: the explicit parameter when given, else the automatic one. -/
def fsWindow (hkl : Vec3 ℤ) (nopt : Option ℕ) : ℕ :=
  nopt.getD (autoWindow hkl)

/-- Modelled from the spec: the bounded searches of the solver, given the
reduced templates and the window size. -/
def fsSearch (hkl : Vec3 ℤ) (L : Mat3) (n : ℕ) (t1 t2 : Vec3 ℤ) :
    Except FSError (Vec3 ℤ × Vec3 ℤ × Vec3 ℤ) :=
  match selectB L (selectA L t1 t2 n) t1 t2 n with
  | none => Except.error FSError.basisSearchError
  | some b0 =>
      match selectC L hkl n with
      | none => Except.error FSError.basisSearchError
      | some c =>
          Except.ok (selectA L t1 t2 n,
                     orientB L hkl (selectA L t1 t2 n) b0, c)

/-- Modelled from the spec: the core of `free_surface_basis` on an integer
plane: build and reduce the in-plane templates (failing on the degenerate
all-zero plane), then run the three bounded searches. -/
def fsCore (hkl : Vec3 ℤ) (L : Mat3) (nopt : Option ℕ) :
    Except FSError (Vec3 ℤ × Vec3 ℤ × Vec3 ℤ) :=
  match inPlaneTemplates hkl with
  | none => Except.error FSError.invalidIndexError
  | some t12 =>
      fsSearch hkl L (fsWindow hkl nopt) (reduceVec t12.1) (reduceVec t12.2)

/-- Rescale a rational plane to coprime integer indices (the same plane);
none when the vector is zero. -/
def normalizePlane (p : Vec3 ℚ) : Option (Vec3 ℤ) :=
  let q : Vec3 ℤ := intVec p ((ratDen3 p : ℕ) : ℤ)
  if (gcd3 q : ℤ) = 0 then none else some (reduceVec q)

def toRowList3 (p : Vec3 ℚ) : List ℚ :=
  [p.x, p.y, p.z]

def toRowList4 (p : Vec4 ℚ) : List ℚ :=
  [p.u, p.v, p.t, p.w]

/-- Conventional-to-primitive conversion of a plane: the plane is a
reciprocal-space quantity, so the transposed direction map applies. -/
def planeForSearch (p : Vec3 ℚ) (setting : Option Setting) : Vec3 ℚ :=
  match setting with
  | none => p
  | some s => (primitiveToConventionalMat s).colApply p

/-- Primitive-to-conventional back-conversion of an output direction, when a
centering setting was supplied. -/
def outConv (setting : Option Setting) (q : Vec3 ℤ) : Vec3 ℚ :=
  match setting with
  | none => q.toRat
  | some s => (primitiveToConventionalMat s).rowApply q.toRat

/-- Modelled from the spec: processing of a parsed plane: optional
conventional-to-primitive conversion of the plane (reciprocal-space
transform), normalization to coprime integer indices, the core search, the
optional primitive-to-conventional back-conversion of the output directions,
and the optional Miller-Bravais re-expansion of the output rows. -/
def fsAfterParse (p : Vec3 ℚ) (given4 : Bool) (L : Mat3) (setting : Option Setting)
    (nopt : Option ℕ) (returnHexOpt : Option Bool) : Except FSError (List (List ℚ)) :=
  match normalizePlane (planeForSearch p setting) with
  | none => Except.error FSError.invalidIndexError
  | some hklInt =>
      match fsCore hklInt L nopt with
      | Except.error e => Except.error e
      | Except.ok abc =>
          if returnHexOpt.getD given4 then
            Except.ok [toRowList4 (vector3to4 (outConv setting abc.1)),
                       toRowList4 (vector3to4 (outConv setting abc.2.1)),
                       toRowList4 (vector3to4 (outConv setting abc.2.2))]
          else
            Except.ok [toRowList3 (outConv setting abc.1),
                       toRowList3 (outConv setting abc.2.1),
                       toRowList3 (outConv setting abc.2.2)]

/-- Modelled from the spec: `free_surface_basis`: validate the index list
(3-index Miller or 4-index Miller-Bravais, anything else is an
InvalidIndexError), then process the plane; a 4-index input selects
Miller-Bravais output by default. -/
def free_surface_basis (hkl : List ℚ) (L : Mat3) (setting : Option Setting)
    (nopt : Option ℕ) (returnHexOpt : Option Bool) : Except FSError (List (List ℚ)) :=
  match hkl with
  | [h, k, l] => fsAfterParse ⟨h, k, l⟩ false L setting nopt returnHexOpt
  | [h, k, _, l] => fsAfterParse ⟨h, k, l⟩ true L setting nopt returnHexOpt
  | _ => Except.error FSError.invalidIndexError

instance {ε α : Type} [DecidableEq ε] [DecidableEq α] : DecidableEq (Except ε α) :=
  fun u w => by
    cases u with
    | ok a =>
      cases w with
      | ok b =>
        exact if h : a = b then Decidable.isTrue (by rw [h])
          else Decidable.isFalse (by intro hc; injection hc; contradiction)
      | error e => exact Decidable.isFalse (by intro hc; exact Except.noConfusion hc)
    | error e =>
      cases w with
      | ok b => exact Decidable.isFalse (by intro hc; exact Except.noConfusion hc)
      | error f =>
        exact if h : e = f then Decidable.isTrue (by rw [h])
          else Decidable.isFalse (by intro hc; injection hc; contradiction)

theorem Vec3.ext_comp {α : Type} {p q : Vec3 α}
    (hx : p.x = q.x) (hy : p.y = q.y) (hz : p.z = q.z) : p = q := by
  cases p
  cases q
  simp_all

theorem dot_comm {α : Type} [CommRing α] (p q : Vec3 α) : Vec3.dot p q = Vec3.dot q p := by
  simp only [Vec3.dot]
  ring

theorem dot_combo (hkl t1 t2 : Vec3 ℤ) (jk : ℤ × ℤ) :
    Vec3.dot hkl (combo t1 t2 jk) = jk.1 * Vec3.dot hkl t1 + jk.2 * Vec3.dot hkl t2 := by
  simp only [combo, Vec3.dot, Vec3.add, Vec3.smul]
  ring

theorem not_all_zero {α : Type} [Zero α] {p : Vec3 α} (hp : p ≠ ⟨0, 0, 0⟩) :
    p.x ≠ 0 ∨ p.y ≠ 0 ∨ p.z ≠ 0 := by
  by_contra hc
  push_neg at hc
  exact hp (Vec3.ext_comp hc.1 hc.2.1 hc.2.2)

theorem dot_self_pos {α : Type} [LinearOrderedCommRing α] (p : Vec3 α)
    (hp : p ≠ ⟨0, 0, 0⟩) : 0 < Vec3.dot p p := by
  simp only [Vec3.dot]
  rcases not_all_zero hp with h | h | h
  · nlinarith [mul_self_pos.mpr h, mul_self_nonneg p.y, mul_self_nonneg p.z]
  · nlinarith [mul_self_pos.mpr h, mul_self_nonneg p.x, mul_self_nonneg p.z]
  · nlinarith [mul_self_pos.mpr h, mul_self_nonneg p.x, mul_self_nonneg p.y]

theorem dot_self_nonneg {α : Type} [LinearOrderedCommRing α] (p : Vec3 α) :
    0 ≤ Vec3.dot p p := by
  simp only [Vec3.dot]
  nlinarith [mul_self_nonneg p.x, mul_self_nonneg p.y, mul_self_nonneg p.z]

theorem cross_swap {α : Type} [CommRing α] (p q : Vec3 α) :
    Vec3.cross q p = Vec3.neg (Vec3.cross p q) := by
  apply Vec3.ext_comp <;> simp only [Vec3.cross, Vec3.neg] <;> ring

theorem cross_smul_right {α : Type} [CommRing α] (c : α) (p q : Vec3 α) :
    Vec3.cross p (Vec3.smul c q) = Vec3.smul c (Vec3.cross p q) := by
  apply Vec3.ext_comp <;> simp only [Vec3.cross, Vec3.smul] <;> ring

theorem cross_self {α : Type} [CommRing α] (p : Vec3 α) :
    Vec3.cross p p = ⟨0, 0, 0⟩ := by
  apply Vec3.ext_comp <;> simp only [Vec3.cross] <;> ring

theorem cross_neg_right {α : Type} [CommRing α] (p q : Vec3 α) :
    Vec3.cross p (Vec3.neg q) = Vec3.neg (Vec3.cross p q) := by
  apply Vec3.ext_comp <;> simp only [Vec3.cross, Vec3.neg] <;> ring

theorem dot_neg_left {α : Type} [CommRing α] (p q : Vec3 α) :
    Vec3.dot (Vec3.neg p) q = -(Vec3.dot p q) := by
  simp only [Vec3.dot, Vec3.neg]
  ring

/-- Lagrange triple-product expansion (p x q) x r = (p.r) q - (q.r) p. -/
theorem cross_cross_expand (p q r : Vec3 ℚ) :
    Vec3.cross (Vec3.cross p q) r =
      Vec3.sub (Vec3.smul (Vec3.dot p r) q) (Vec3.smul (Vec3.dot q r) p) := by
  apply Vec3.ext_comp <;> simp only [Vec3.cross, Vec3.sub, Vec3.smul, Vec3.dot] <;> ring

/-- A vector whose cross product with a nonzero vector vanishes is a scalar
multiple of it. -/
theorem collinear_of_cross_eq_zero (z nv : Vec3 ℚ) (hnv : nv ≠ ⟨0, 0, 0⟩)
    (h : Vec3.cross z nv = ⟨0, 0, 0⟩) : ∃ lam : ℚ, z = Vec3.smul lam nv := by
  have h1 : z.y * nv.z - z.z * nv.y = 0 := congrArg Vec3.x h
  have h2 : z.z * nv.x - z.x * nv.z = 0 := congrArg Vec3.y h
  have h3 : z.x * nv.y - z.y * nv.x = 0 := congrArg Vec3.z h
  rcases not_all_zero hnv with hx | hy | hz
  · refine ⟨z.x / nv.x, Vec3.ext_comp ?_ ?_ ?_⟩ <;> simp only [Vec3.smul] <;>
      field_simp <;> linarith
  · refine ⟨z.y / nv.y, Vec3.ext_comp ?_ ?_ ?_⟩ <;> simp only [Vec3.smul] <;>
      field_simp <;> linarith
  · refine ⟨z.z / nv.z, Vec3.ext_comp ?_ ?_ ?_⟩ <;> simp only [Vec3.smul] <;>
      field_simp <;> linarith

theorem rowApply_dot_cross12 (L : Mat3) (u : Vec3 ℚ) :
    Vec3.dot (L.rowApply u) (Vec3.cross L.r1 L.r2) = u.x * L.det := by
  simp only [Mat3.rowApply, Mat3.det, Vec3.triple, Vec3.dot, Vec3.cross, Vec3.add, Vec3.smul]
  ring

theorem rowApply_dot_cross20 (L : Mat3) (u : Vec3 ℚ) :
    Vec3.dot (L.rowApply u) (Vec3.cross L.r2 L.r0) = u.y * L.det := by
  simp only [Mat3.rowApply, Mat3.det, Vec3.triple, Vec3.dot, Vec3.cross, Vec3.add, Vec3.smul]
  ring

theorem rowApply_dot_cross01 (L : Mat3) (u : Vec3 ℚ) :
    Vec3.dot (L.rowApply u) (Vec3.cross L.r0 L.r1) = u.z * L.det := by
  simp only [Mat3.rowApply, Mat3.det, Vec3.triple, Vec3.dot, Vec3.cross, Vec3.add, Vec3.smul]
  ring

/-- The lattice map is injective when the determinant is nonzero. -/
theorem rowApply_eq_zero_imp (L : Mat3) (u : Vec3 ℚ) (hdet : L.det ≠ 0)
    (h : L.rowApply u = ⟨0, 0, 0⟩) : u = ⟨0, 0, 0⟩ := by
  have hx := rowApply_dot_cross12 L u
  have hy := rowApply_dot_cross20 L u
  have hz := rowApply_dot_cross01 L u
  rw [h] at hx hy hz
  simp only [Vec3.dot, zero_mul, add_zero] at hx hy hz
  apply Vec3.ext_comp
  · exact (mul_eq_zero.mp hx.symm).resolve_right hdet
  · exact (mul_eq_zero.mp hy.symm).resolve_right hdet
  · exact (mul_eq_zero.mp hz.symm).resolve_right hdet

theorem rowApply_sub_smul (L : Mat3) (u v : Vec3 ℚ) (c : ℚ) :
    L.rowApply (Vec3.sub u (Vec3.smul c v)) =
      Vec3.sub (L.rowApply u) (Vec3.smul c (L.rowApply v)) := by
  apply Vec3.ext_comp <;>
    simp only [Mat3.rowApply, Vec3.sub, Vec3.smul, Vec3.add] <;> ring

/-- Pairing identity: the reciprocal combination pairs with lattice images by
the Miller dot product, times the determinant. -/
theorem dot_rowApply_recipComb (L : Mat3) (hkl : Vec3 ℤ) (u : Vec3 ℚ) :
    Vec3.dot (L.rowApply u) (recipComb L hkl) = L.det * Vec3.dot hkl.toRat u := by
  simp only [Mat3.rowApply, recipComb, Mat3.det, Vec3.triple, Vec3.toRat, Vec3.dot,
    Vec3.cross, Vec3.add, Vec3.smul]
  ring

theorem dot_rowApply_trueNormal (L : Mat3) (hkl : Vec3 ℤ) (u : Vec3 ℚ) (hdet : L.det ≠ 0) :
    Vec3.dot (L.rowApply u) (trueNormal L hkl) = Vec3.dot hkl.toRat u := by
  have hsm : Vec3.dot (L.rowApply u) (trueNormal L hkl) =
      (1 / L.det) * Vec3.dot (L.rowApply u) (recipComb L hkl) := by
    simp only [trueNormal, Vec3.dot, Vec3.smul]
    ring
  rw [hsm, dot_rowApply_recipComb]
  field_simp

theorem triple_rowApply (L : Mat3) (x y z : Vec3 ℚ) :
    Vec3.triple (L.rowApply x) (L.rowApply y) (L.rowApply z) =
      L.det * Vec3.triple x y z := by
  simp only [Vec3.triple, Vec3.dot, Vec3.cross, Mat3.rowApply, Vec3.add, Vec3.smul, Mat3.det]
  ring

theorem toRat_add (p q : Vec3 ℤ) : (Vec3.add p q).toRat = Vec3.add p.toRat q.toRat := by
  apply Vec3.ext_comp <;> simp [Vec3.toRat, Vec3.add]

theorem toRat_neg (p : Vec3 ℤ) : (Vec3.neg p).toRat = Vec3.neg p.toRat := by
  apply Vec3.ext_comp <;> simp [Vec3.toRat, Vec3.neg]

theorem toRat_smul (m : ℤ) (p : Vec3 ℤ) :
    (Vec3.smul m p).toRat = Vec3.smul (m : ℚ) p.toRat := by
  apply Vec3.ext_comp <;> simp [Vec3.toRat, Vec3.smul]

theorem toRat_cross (p q : Vec3 ℤ) :
    (Vec3.cross p q).toRat = Vec3.cross p.toRat q.toRat := by
  apply Vec3.ext_comp <;> simp [Vec3.toRat, Vec3.cross]

theorem toRat_dot (p q : Vec3 ℤ) :
    ((Vec3.dot p q : ℤ) : ℚ) = Vec3.dot p.toRat q.toRat := by
  simp [Vec3.toRat, Vec3.dot]

theorem toRat_triple (p q r : Vec3 ℤ) :
    ((Vec3.triple p q r : ℤ) : ℚ) = Vec3.triple p.toRat q.toRat r.toRat := by
  simp [Vec3.triple, Vec3.toRat, Vec3.dot, Vec3.cross]

theorem toRat_eq_zero_iff (p : Vec3 ℤ) : p.toRat = ⟨0, 0, 0⟩ ↔ p = ⟨0, 0, 0⟩ := by
  constructor
  · intro h
    have hx : ((p.x : ℚ)) = 0 := congrArg Vec3.x h
    have hy : ((p.y : ℚ)) = 0 := congrArg Vec3.y h
    have hz : ((p.z : ℚ)) = 0 := congrArg Vec3.z h
    exact Vec3.ext_comp (by exact_mod_cast hx) (by exact_mod_cast hy) (by exact_mod_cast hz)
  · intro h
    rw [h]
    rfl

theorem scaleToInt_cast (q : ℚ) (d : ℤ) (hd : (q.den : ℤ) ∣ d) :
    ((scaleToInt q d : ℤ) : ℚ) = q * (d : ℚ) := by
  unfold scaleToInt
  rcases hd with ⟨c, hc⟩
  have hden0 : ((q.den : ℤ)) ≠ 0 := by
    exact_mod_cast q.den_nz
  have hdq : ((q.den : ℚ)) ≠ 0 := by exact_mod_cast q.den_nz
  have hnum : ((q.num : ℚ)) = q * (q.den : ℚ) := (div_eq_iff hdq).mp (Rat.num_div_den q)
  rw [hc, Int.mul_ediv_cancel_left _ hden0]
  push_cast
  rw [hnum]
  ring

theorem ratDen3_dvd (v : Vec3 ℚ) :
    v.x.den ∣ ratDen3 v ∧ v.y.den ∣ ratDen3 v ∧ v.z.den ∣ ratDen3 v := by
  refine ⟨?_, ?_, ?_⟩
  · exact dvd_trans (Nat.dvd_lcm_left _ _) (Nat.dvd_lcm_left _ _)
  · exact dvd_trans (Nat.dvd_lcm_right _ _) (Nat.dvd_lcm_left _ _)
  · exact Nat.dvd_lcm_right _ _

theorem intVec_cast (v : Vec3 ℚ) (d : ℤ) (hd : ((ratDen3 v : ℕ) : ℤ) ∣ d) :
    (intVec v d).toRat = Vec3.smul (d : ℚ) v := by
  have hx : ((v.x.den : ℕ) : ℤ) ∣ d :=
    dvd_trans (by exact_mod_cast (ratDen3_dvd v).1) hd
  have hy : ((v.y.den : ℕ) : ℤ) ∣ d :=
    dvd_trans (by exact_mod_cast (ratDen3_dvd v).2.1) hd
  have hz : ((v.z.den : ℕ) : ℤ) ∣ d :=
    dvd_trans (by exact_mod_cast (ratDen3_dvd v).2.2) hd
  apply Vec3.ext_comp <;>
    simp only [intVec, Vec3.toRat, Vec3.smul] <;>
    rw [scaleToInt_cast _ _ (by assumption)] <;> ring

theorem den_dvd_rows (L : Mat3) :
    ((ratDen3 L.r0 : ℕ) : ℤ) ∣ ((L.den : ℕ) : ℤ) ∧
    ((ratDen3 L.r1 : ℕ) : ℤ) ∣ ((L.den : ℕ) : ℤ) ∧
    ((ratDen3 L.r2 : ℕ) : ℤ) ∣ ((L.den : ℕ) : ℤ) := by
  refine ⟨?_, ?_, ?_⟩ <;> rw [Int.natCast_dvd_natCast]
  · exact dvd_trans (Nat.dvd_lcm_left _ _) (Nat.dvd_lcm_left _ _)
  · exact dvd_trans (Nat.dvd_lcm_right _ _) (Nat.dvd_lcm_left _ _)
  · exact Nat.dvd_lcm_right _ _

theorem ir0_cast (L : Mat3) : (L.ir0).toRat = Vec3.smul ((L.den : ℕ) : ℚ) L.r0 := by
  have h := intVec_cast L.r0 ((L.den : ℕ) : ℤ) (den_dvd_rows L).1
  rw [Mat3.ir0, h]
  norm_num

theorem ir1_cast (L : Mat3) : (L.ir1).toRat = Vec3.smul ((L.den : ℕ) : ℚ) L.r1 := by
  have h := intVec_cast L.r1 ((L.den : ℕ) : ℤ) (den_dvd_rows L).2.1
  rw [Mat3.ir1, h]
  norm_num

theorem ir2_cast (L : Mat3) : (L.ir2).toRat = Vec3.smul ((L.den : ℕ) : ℚ) L.r2 := by
  have h := intVec_cast L.r2 ((L.den : ℕ) : ℤ) (den_dvd_rows L).2.2
  rw [Mat3.ir2, h]
  norm_num

theorem den_pos (L : Mat3) : 0 < L.den := by
  apply Nat.pos_of_ne_zero
  apply Nat.lcm_ne_zero
  · apply Nat.lcm_ne_zero
    · exact Nat.lcm_ne_zero (Nat.lcm_ne_zero L.r0.x.den_nz L.r0.y.den_nz) L.r0.z.den_nz
    · exact Nat.lcm_ne_zero (Nat.lcm_ne_zero L.r1.x.den_nz L.r1.y.den_nz) L.r1.z.den_nz
  · exact Nat.lcm_ne_zero (Nat.lcm_ne_zero L.r2.x.den_nz L.r2.y.den_nz) L.r2.z.den_nz

theorem ir_comp_cast (L : Mat3) :
    ((L.ir0.x : ℤ) : ℚ) = ((L.den : ℕ) : ℚ) * L.r0.x ∧
    ((L.ir0.y : ℤ) : ℚ) = ((L.den : ℕ) : ℚ) * L.r0.y ∧
    ((L.ir0.z : ℤ) : ℚ) = ((L.den : ℕ) : ℚ) * L.r0.z ∧
    ((L.ir1.x : ℤ) : ℚ) = ((L.den : ℕ) : ℚ) * L.r1.x ∧
    ((L.ir1.y : ℤ) : ℚ) = ((L.den : ℕ) : ℚ) * L.r1.y ∧
    ((L.ir1.z : ℤ) : ℚ) = ((L.den : ℕ) : ℚ) * L.r1.z ∧
    ((L.ir2.x : ℤ) : ℚ) = ((L.den : ℕ) : ℚ) * L.r2.x ∧
    ((L.ir2.y : ℤ) : ℚ) = ((L.den : ℕ) : ℚ) * L.r2.y ∧
    ((L.ir2.z : ℤ) : ℚ) = ((L.den : ℕ) : ℚ) * L.r2.z := by
  have h0 := ir0_cast L
  have h1 := ir1_cast L
  have h2 := ir2_cast L
  exact ⟨congrArg Vec3.x h0, congrArg Vec3.y h0, congrArg Vec3.z h0,
    congrArg Vec3.x h1, congrArg Vec3.y h1, congrArg Vec3.z h1,
    congrArg Vec3.x h2, congrArg Vec3.y h2, congrArg Vec3.z h2⟩

theorem cartInt_cast (L : Mat3) (p : Vec3 ℤ) :
    (cartInt L p).toRat = Vec3.smul ((L.den : ℕ) : ℚ) (L.rowApply p.toRat) := by
  obtain ⟨e1, e2, e3, e4, e5, e6, e7, e8, e9⟩ := ir_comp_cast L
  apply Vec3.ext_comp <;>
    simp only [cartInt, Mat3.rowApply, Vec3.toRat, Vec3.add, Vec3.smul] <;>
    push_cast <;>
    simp only [e1, e2, e3, e4, e5, e6, e7, e8, e9] <;>
    ring

theorem len2Int_cast (L : Mat3) (p : Vec3 ℤ) :
    ((len2Int L p : ℤ) : ℚ) =
      ((L.den : ℕ) : ℚ) ^ 2 *
        Vec3.dot (L.rowApply p.toRat) (L.rowApply p.toRat) := by
  have h := cartInt_cast L p
  rw [len2Int, toRat_dot, h]
  simp only [Vec3.dot, Vec3.smul]
  ring

theorem len2Int_pos (L : Mat3) (p : Vec3 ℤ) (hdet : L.det ≠ 0)
    (hp : p ≠ ⟨0, 0, 0⟩) : 0 < len2Int L p := by
  have hcast : (0 : ℚ) < ((len2Int L p : ℤ) : ℚ) := by
    rw [len2Int_cast]
    have hR : L.rowApply p.toRat ≠ ⟨0, 0, 0⟩ := by
      intro hc
      exact hp ((toRat_eq_zero_iff p).mp (rowApply_eq_zero_imp L p.toRat hdet hc))
    have hd : (0 : ℚ) < ((L.den : ℕ) : ℚ) ^ 2 := by
      have := den_pos L
      positivity
    exact mul_pos hd (dot_self_pos _ hR)
  exact_mod_cast hcast

theorem len2Int_neg (L : Mat3) (p : Vec3 ℤ) :
    len2Int L (Vec3.neg p) = len2Int L p := by
  have hc : cartInt L (Vec3.neg p) = Vec3.neg (cartInt L p) := by
    apply Vec3.ext_comp <;>
      simp only [cartInt, Vec3.neg, Vec3.add, Vec3.smul] <;> ring
  rw [len2Int, len2Int, hc]
  simp only [Vec3.dot, Vec3.neg]
  ring

theorem detInt_cast (L : Mat3) :
    ((L.detInt : ℤ) : ℚ) = ((L.den : ℕ) : ℚ) ^ 3 * L.det := by
  obtain ⟨e1, e2, e3, e4, e5, e6, e7, e8, e9⟩ := ir_comp_cast L
  rw [Mat3.detInt, toRat_triple]
  simp only [Mat3.det, Vec3.triple, Vec3.dot, Vec3.cross, Vec3.toRat, Vec3.smul,
    e1, e2, e3, e4, e5, e6, e7, e8, e9]
  ring

theorem wInt_cast (L : Mat3) (hkl : Vec3 ℤ) :
    (wInt L hkl).toRat = Vec3.smul (((L.den : ℕ) : ℚ) ^ 2) (recipComb L hkl) := by
  obtain ⟨e1, e2, e3, e4, e5, e6, e7, e8, e9⟩ := ir_comp_cast L
  apply Vec3.ext_comp <;>
    simp only [wInt, recipComb, Vec3.toRat, Vec3.add, Vec3.smul, Vec3.cross] <;>
    push_cast <;>
    simp only [e1, e2, e3, e4, e5, e6, e7, e8, e9] <;>
    ring

theorem foldl_preserve {α β : Type} (f : β → α → β) (P : β → Prop) (l : List α) :
    ∀ b : β, P b → (∀ x ∈ l, ∀ b2, P b2 → P (f b2 x)) → P (l.foldl f b) := by
  induction l with
  | nil =>
      intro b hb _
      exact hb
  | cons x xs ih =>
      intro b hb hf
      exact ih (f b x) (hf x (by simp) b hb)
        (fun y hy b2 hb2 => hf y (by simp [hy]) b2 hb2)

theorem dot_zero_right (hkl : Vec3 ℤ) : Vec3.dot hkl (⟨0, 0, 0⟩ : Vec3 ℤ) = 0 := by
  simp [Vec3.dot]

/-- Any result of the first in-plane search is a nonzero combination lying in
the plane. -/
theorem selectA_props (L : Mat3) (hkl t1 t2 : Vec3 ℤ) (n : ℕ)
    (h1 : Vec3.dot hkl t1 = 0) (h2 : Vec3.dot hkl t2 = 0) (h1z : t1 ≠ ⟨0, 0, 0⟩) :
    Vec3.dot hkl (selectA L t1 t2 n) = 0 ∧ selectA L t1 t2 n ≠ ⟨0, 0, 0⟩ := by
  unfold selectA
  apply foldl_preserve (stepA L t1 t2)
    (fun b => Vec3.dot hkl b = 0 ∧ b ≠ ⟨0, 0, 0⟩) (windowPairs n) t1 ⟨h1, h1z⟩
  intro jk _ b hb
  unfold stepA
  split
  · next hcond =>
      refine ⟨?_, hcond.1⟩
      rw [dot_combo, h1, h2]
      ring
  · exact hb

/-- Any result of the second in-plane search lies in the plane and is not
parallel to the first selection. -/
theorem selectB_props (L : Mat3) (a hkl t1 t2 : Vec3 ℤ) (n : ℕ)
    (h1 : Vec3.dot hkl t1 = 0) (h2 : Vec3.dot hkl t2 = 0) :
    ∀ b, selectB L a t1 t2 n = some b →
      Vec3.dot hkl b = 0 ∧ Vec3.cross a b ≠ ⟨0, 0, 0⟩ := by
  unfold selectB
  apply foldl_preserve (stepB L a t1 t2)
    (fun ob => ∀ b, ob = some b → Vec3.dot hkl b = 0 ∧ Vec3.cross a b ≠ ⟨0, 0, 0⟩)
  · split
    · next hcond =>
        intro b hb
        injection hb with hb
        subst hb
        exact ⟨h2, hcond⟩
    · intro b hb
      exact Option.noConfusion hb
  · intro jk _ ob hob
    cases ob with
    | none =>
        intro b hb
        simp only [stepB] at hb
        split at hb
        · next hcond =>
            injection hb with hb
            subst hb
            refine ⟨?_, hcond⟩
            rw [dot_combo, h1, h2]
            ring
        · exact Option.noConfusion hb
    | some b0 =>
        intro b hb
        simp only [stepB] at hb
        split at hb
        · next hcond =>
            injection hb with hb
            subst hb
            refine ⟨?_, hcond.1⟩
            rw [dot_combo, h1, h2]
            ring
        · exact hob b hb

/-- Any result of the out-of-plane search lies in the window and has a
nonzero component along the plane normal. -/
theorem selectC_mem (L : Mat3) (hkl : Vec3 ℤ) (n : ℕ) :
    ∀ c, selectC L hkl n = some c → c ∈ windowTriples n ∧ Vec3.dot hkl c ≠ 0 := by
  unfold selectC
  apply foldl_preserve (stepC L hkl)
    (fun ob => ∀ c, ob = some c → c ∈ windowTriples n ∧ Vec3.dot hkl c ≠ 0)
  · intro c hc
    exact Option.noConfusion hc
  · intro v hv ob hob
    cases ob with
    | none =>
        intro c hc
        simp only [stepC] at hc
        split at hc
        · next hcond =>
            injection hc with hc
            subst hc
            exact ⟨hv, hcond⟩
        · exact Option.noConfusion hc
    | some b =>
        intro c hc
        simp only [stepC] at hc
        split at hc
        · next hcond =>
            injection hc with hc
            subst hc
            exact ⟨hv, hcond.1⟩
        · exact hob c hc

theorem dot_neg_right (p q : Vec3 ℤ) : Vec3.dot p (Vec3.neg q) = -(Vec3.dot p q) := by
  simp only [Vec3.dot, Vec3.neg]
  ring

/-- The angle comparison Boolean is exactly the strict comparison of the
signed squared cosines. -/
theorem angleBetter_iff (L : Mat3) (hkl v w : Vec3 ℤ)
    (hqv : 0 < len2Int L v) (hqw : 0 < len2Int L w) :
    (angleBetter L hkl v w = true) ↔ cosRank L hkl w < cosRank L hkl v := by
  have hqvQ : (0 : ℚ) < ((len2Int L v : ℤ) : ℚ) := by exact_mod_cast hqv
  have hqwQ : (0 : ℚ) < ((len2Int L w : ℤ) : ℚ) := by exact_mod_cast hqw
  simp only [angleBetter, cosRank]
  rcases le_or_lt 0 (Vec3.dot hkl v) with hsv | hsv <;>
    rcases le_or_lt 0 (Vec3.dot hkl w) with hsw | hsw
  · simp only [if_pos hsv, if_pos hsw, Bool.or_eq_true, decide_eq_true_eq]
    rw [div_lt_div_iff₀ hqwQ hqvQ]
    constructor
    · rintro (h1 | h1)
      · exact absurd h1 (not_lt.mpr hsw)
      · exact_mod_cast h1
    · intro h1
      right
      exact_mod_cast h1
  · simp only [if_pos hsv, if_neg (not_le.mpr hsw), Bool.or_eq_true, decide_eq_true_eq]
    constructor
    · intro _
      have hneg : -(((Vec3.dot hkl w : ℤ) : ℚ) ^ 2 / ((len2Int L w : ℤ) : ℚ)) < 0 := by
        have hsw2 : (0 : ℚ) < ((Vec3.dot hkl w : ℤ) : ℚ) ^ 2 := by
          have : ((Vec3.dot hkl w : ℤ) : ℚ) < 0 := by exact_mod_cast hsw
          nlinarith [this]
        have := div_pos hsw2 hqwQ
        linarith
      have hnn : (0 : ℚ) ≤ ((Vec3.dot hkl v : ℤ) : ℚ) ^ 2 / ((len2Int L v : ℤ) : ℚ) :=
        div_nonneg (by positivity) (le_of_lt hqvQ)
      linarith
    · intro _
      left
      exact hsw
  · simp only [if_neg (not_le.mpr hsv), if_pos hsw, Bool.and_eq_true, decide_eq_true_eq]
    constructor
    · rintro ⟨h1, _⟩
      exact absurd h1 (not_lt.mpr hsw)
    · intro h1
      exfalso
      have hneg : -(((Vec3.dot hkl v : ℤ) : ℚ) ^ 2 / ((len2Int L v : ℤ) : ℚ)) < 0 := by
        have hsv2 : (0 : ℚ) < ((Vec3.dot hkl v : ℤ) : ℚ) ^ 2 := by
          have : ((Vec3.dot hkl v : ℤ) : ℚ) < 0 := by exact_mod_cast hsv
          nlinarith [this]
        have := div_pos hsv2 hqvQ
        linarith
      have hnn : (0 : ℚ) ≤ ((Vec3.dot hkl w : ℤ) : ℚ) ^ 2 / ((len2Int L w : ℤ) : ℚ) :=
        div_nonneg (by positivity) (le_of_lt hqwQ)
      linarith
  · simp only [if_neg (not_le.mpr hsv), if_neg (not_le.mpr hsw), Bool.and_eq_true,
      decide_eq_true_eq]
    rw [neg_lt_neg_iff, div_lt_div_iff₀ hqvQ hqwQ]
    constructor
    · rintro ⟨_, h1⟩
      exact_mod_cast h1
    · intro h1
      exact ⟨hsw, by exact_mod_cast h1⟩

theorem cosRank_pos_of (L : Mat3) (hkl v : Vec3 ℤ) (hq : 0 < len2Int L v)
    (hs : 0 < Vec3.dot hkl v) : 0 < cosRank L hkl v := by
  have hqQ : (0 : ℚ) < ((len2Int L v : ℤ) : ℚ) := by exact_mod_cast hq
  have hsQ : (0 : ℚ) < ((Vec3.dot hkl v : ℤ) : ℚ) := by exact_mod_cast hs
  rw [cosRank, if_pos (le_of_lt hs)]
  exact div_pos (by positivity) hqQ

theorem cosRank_neg_of (L : Mat3) (hkl v : Vec3 ℤ) (hq : 0 < len2Int L v)
    (hs : Vec3.dot hkl v < 0) : cosRank L hkl v < 0 := by
  have hqQ : (0 : ℚ) < ((len2Int L v : ℤ) : ℚ) := by exact_mod_cast hq
  have hsQ : ((Vec3.dot hkl v : ℤ) : ℚ) < 0 := by exact_mod_cast hs
  rw [cosRank, if_neg (not_le.mpr hs)]
  have : (0 : ℚ) < ((Vec3.dot hkl v : ℤ) : ℚ) ^ 2 / ((len2Int L v : ℤ) : ℚ) :=
    div_pos (by nlinarith [hsQ]) hqQ
  linarith

/-- The out-of-plane fold keeps a candidate that no processed valid candidate
strictly beats. -/
theorem foldC_max (L : Mat3) (hkl : Vec3 ℤ)
    (hq : ∀ u : Vec3 ℤ, Vec3.dot hkl u ≠ 0 → 0 < len2Int L u) :
    ∀ (l : List (Vec3 ℤ)) (acc : Option (Vec3 ℤ)),
      (∀ b, acc = some b → Vec3.dot hkl b ≠ 0) →
      ∀ c, l.foldl (stepC L hkl) acc = some c →
        Vec3.dot hkl c ≠ 0 ∧
        (∀ b, acc = some b → cosRank L hkl b ≤ cosRank L hkl c) ∧
        (∀ w ∈ l, Vec3.dot hkl w ≠ 0 → cosRank L hkl w ≤ cosRank L hkl c) := by
  intro l
  induction l with
  | nil =>
      intro acc hacc c hc
      simp only [List.foldl_nil] at hc
      refine ⟨hacc c hc, ?_, ?_⟩
      · intro b hb
        rw [hb] at hc
        injection hc with hc
        rw [hc]
      · intro w hw
        exact absurd hw (List.not_mem_nil w)
  | cons v vs ih =>
      intro acc hacc c hc
      simp only [List.foldl_cons] at hc
      have hacc2 : ∀ b, stepC L hkl acc v = some b → Vec3.dot hkl b ≠ 0 := by
        cases acc with
        | none =>
            intro b hb
            simp only [stepC] at hb
            split at hb
            · next hvv =>
                injection hb with hb
                subst hb
                exact hvv
            · exact Option.noConfusion hb
        | some b0 =>
            intro b hb
            simp only [stepC] at hb
            split at hb
            · next hvv =>
                injection hb with hb
                subst hb
                exact hvv.1
            · injection hb with hb
              subst hb
              exact hacc b0 rfl
      obtain ⟨hc1, hc2, hc3⟩ := ih (stepC L hkl acc v) hacc2 c hc
      refine ⟨hc1, ?_, ?_⟩
      · intro b hb
        subst hb
        by_cases hcase : Vec3.dot hkl v ≠ 0 ∧ angleBetter L hkl v b = true
        · have hstep : stepC L hkl (some b) v = some v := by
            simp only [stepC]
            rw [if_pos hcase]
          have hCv := hc2 v hstep
          have hb_valid : Vec3.dot hkl b ≠ 0 := hacc b rfl
          have hlt : cosRank L hkl b < cosRank L hkl v :=
            (angleBetter_iff L hkl v b (hq v hcase.1) (hq b hb_valid)).mp hcase.2
          linarith
        · have hstep : stepC L hkl (some b) v = some b := by
            simp only [stepC]
            rw [if_neg hcase]
          exact hc2 b hstep
      · intro w hw hwv
        rcases List.mem_cons.mp hw with rfl | hwmem
        · cases acc with
          | none =>
              have hstep : stepC L hkl none w = some w := by
                simp only [stepC]
                rw [if_pos hwv]
              exact hc2 w hstep
          | some b0 =>
              have hb0_valid : Vec3.dot hkl b0 ≠ 0 := hacc b0 rfl
              by_cases hbt : angleBetter L hkl w b0 = true
              · have hstep : stepC L hkl (some b0) w = some w := by
                  simp only [stepC]
                  rw [if_pos ⟨hwv, hbt⟩]
                exact hc2 w hstep
              · have hstep : stepC L hkl (some b0) w = some b0 := by
                  simp only [stepC]
                  rw [if_neg (by tauto)]
                have h1 : cosRank L hkl w ≤ cosRank L hkl b0 := by
                  have hiff := angleBetter_iff L hkl w b0 (hq w hwv) (hq b0 hb0_valid)
                  exact not_lt.mp (fun hlt => hbt (hiff.mpr hlt))
                exact le_trans h1 (hc2 b0 hstep)
        · exact hc3 w hwmem hwv

theorem coeffSeq_succ (n : ℕ) :
    coeffSeq (n + 1) = coeffSeq n ++ [((n : ℤ) + 1), -((n : ℤ) + 1)] := by
  simp [coeffSeq, List.range_succ]

theorem mem_coeffSeq (n : ℕ) (x : ℤ) : x ∈ coeffSeq n ↔ x.natAbs ≤ n := by
  induction n with
  | zero =>
      constructor
      · intro h
        have hx0 : x = 0 := by simpa [coeffSeq] using h
        simp [hx0]
      · intro h
        have hx0 : x = 0 := by omega
        simp [hx0, coeffSeq]
  | succ m ih =>
      rw [coeffSeq_succ]
      simp only [List.mem_append, ih, List.mem_cons, List.mem_singleton, List.not_mem_nil,
        or_false]
      omega

theorem mem_windowTriples (n : ℕ) (v : Vec3 ℤ) :
    v ∈ windowTriples n ↔ v.x.natAbs ≤ n ∧ v.y.natAbs ≤ n ∧ v.z.natAbs ≤ n := by
  unfold windowTriples
  constructor
  · intro h
    simp only [List.mem_flatten, List.mem_map] at h
    obtain ⟨l1, ⟨jx, hjx, rfl⟩, h1⟩ := h
    simp only [List.mem_flatten, List.mem_map] at h1
    obtain ⟨l2, ⟨jy, hjy, rfl⟩, h2⟩ := h1
    simp only [List.mem_map] at h2
    obtain ⟨jz, hjz, rfl⟩ := h2
    exact ⟨(mem_coeffSeq n jx).mp hjx, (mem_coeffSeq n jy).mp hjy,
      (mem_coeffSeq n jz).mp hjz⟩
  · rintro ⟨hx, hy, hz⟩
    simp only [List.mem_flatten, List.mem_map]
    refine ⟨_, ⟨v.x, (mem_coeffSeq n v.x).mpr hx, rfl⟩, ?_⟩
    simp only [List.mem_flatten, List.mem_map]
    refine ⟨_, ⟨v.y, (mem_coeffSeq n v.y).mpr hy, rfl⟩, ?_⟩
    simp only [List.mem_map]
    exact ⟨v.z, (mem_coeffSeq n v.z).mpr hz, rfl⟩

theorem neg_mem_windowTriples (n : ℕ) (v : Vec3 ℤ) (h : v ∈ windowTriples n) :
    Vec3.neg v ∈ windowTriples n := by
  rw [mem_windowTriples] at h
  rw [mem_windowTriples]
  simp only [Vec3.neg, Int.natAbs_neg]
  exact h

/-- The maximality property of the out-of-plane selection. -/
theorem selectC_max (L : Mat3) (hkl : Vec3 ℤ) (n : ℕ) (hdet : L.det ≠ 0) (c : Vec3 ℤ)
    (hsel : selectC L hkl n = some c) :
    Vec3.dot hkl c ≠ 0 ∧ c ∈ windowTriples n ∧
      ∀ w ∈ windowTriples n, Vec3.dot hkl w ≠ 0 →
        cosRank L hkl w ≤ cosRank L hkl c := by
  have hq : ∀ u : Vec3 ℤ, Vec3.dot hkl u ≠ 0 → 0 < len2Int L u := by
    intro u hu
    apply len2Int_pos L u hdet
    intro h0
    rw [h0] at hu
    exact hu (dot_zero_right hkl)
  obtain ⟨hm, hv⟩ := selectC_mem L hkl n c hsel
  obtain ⟨h1, _, h3⟩ := foldC_max L hkl hq (windowTriples n) none
    (fun b hb => Option.noConfusion hb) c hsel
  exact ⟨h1, hm, h3⟩

/-- The selected out-of-plane vector points to the positive side of the
plane: its Miller dot product is positive. -/
theorem selectC_dot_pos (L : Mat3) (hkl : Vec3 ℤ) (n : ℕ) (hdet : L.det ≠ 0) (c : Vec3 ℤ)
    (hsel : selectC L hkl n = some c) : 0 < Vec3.dot hkl c := by
  obtain ⟨hv, hm, hmax⟩ := selectC_max L hkl n hdet c hsel
  have hq : ∀ u : Vec3 ℤ, Vec3.dot hkl u ≠ 0 → 0 < len2Int L u := by
    intro u hu
    apply len2Int_pos L u hdet
    intro h0
    rw [h0] at hu
    exact hu (dot_zero_right hkl)
  rcases lt_or_gt_of_ne hv with hneg | hpos
  · exfalso
    have hwmem := neg_mem_windowTriples n c hm
    have hwdot : Vec3.dot hkl (Vec3.neg c) = -(Vec3.dot hkl c) := dot_neg_right hkl c
    have hwvalid : Vec3.dot hkl (Vec3.neg c) ≠ 0 := by
      rw [hwdot]
      intro h0
      exact hv (by linarith [neg_eq_zero.mp h0])
    have hle := hmax (Vec3.neg c) hwmem hwvalid
    have hqc : 0 < len2Int L c := hq c hv
    have hqnc : 0 < len2Int L (Vec3.neg c) := by
      rw [len2Int_neg]
      exact hqc
    have hpos2 : 0 < cosRank L hkl (Vec3.neg c) := by
      apply cosRank_pos_of L hkl _ hqnc
      rw [hwdot]
      linarith
    have hneg2 : cosRank L hkl c < 0 := cosRank_neg_of L hkl c hqc hneg
    linarith
  · exact hpos

theorem lcm2_ne_zero {a b : ℤ} (ha : a ≠ 0) (hb : b ≠ 0) : lcm2 a b ≠ 0 := by
  simp only [lcm2]
  have := Nat.lcm_ne_zero (Int.natAbs_ne_zero.mpr ha) (Int.natAbs_ne_zero.mpr hb)
  exact_mod_cast fun hc => this (by exact_mod_cast hc)

theorem dvd_lcm2_left (a b : ℤ) : a ∣ lcm2 a b := Int.dvd_lcm_left

theorem dvd_lcm2_right (a b : ℤ) : b ∣ lcm2 a b := Int.dvd_lcm_right

/-- The in-plane template vectors lie in the plane, are nonzero, and exist
exactly for non-degenerate planes. -/
theorem templates_props (hkl t1 t2 : Vec3 ℤ)
    (h : inPlaneTemplates hkl = some (t1, t2)) :
    Vec3.dot hkl t1 = 0 ∧ Vec3.dot hkl t2 = 0 ∧ t1 ≠ ⟨0, 0, 0⟩ ∧ t2 ≠ ⟨0, 0, 0⟩ ∧
      hkl ≠ ⟨0, 0, 0⟩ := by
  have hne : hkl ≠ ⟨0, 0, 0⟩ → hkl ≠ ⟨0, 0, 0⟩ := id
  unfold inPlaneTemplates at h
  split at h
  · exact Option.noConfusion h
  all_goals rename_i hz0
  · -- all three indices nonzero
    split at h
    · rename_i hall
      obtain ⟨hx, hy, hzz⟩ := hall
      injection h with h
      injection h with ht1 ht2
      subst ht1
      subst ht2
      have hdx : hkl.x ∣ lcm3 hkl.x hkl.y hkl.z :=
        dvd_trans (dvd_lcm2_left _ _) (dvd_lcm2_left _ _)
      have hdy : hkl.y ∣ lcm3 hkl.x hkl.y hkl.z :=
        dvd_trans (dvd_lcm2_right _ _) (dvd_lcm2_left _ _)
      have hdz : hkl.z ∣ lcm3 hkl.x hkl.y hkl.z := dvd_lcm2_right _ _
      have hM : lcm3 hkl.x hkl.y hkl.z ≠ 0 :=
        lcm2_ne_zero (lcm2_ne_zero hx hy) hzz
      have e1 := Int.mul_ediv_cancel' hdx
      have e2 := Int.mul_ediv_cancel' hdy
      have e3 := Int.mul_ediv_cancel' hdz
      refine ⟨?_, ?_, ?_, ?_, ?_⟩
      · simp only [Vec3.dot]
        linear_combination e2 - e1
      · simp only [Vec3.dot]
        linear_combination e3 - e1
      · intro heq
        have hc := congrArg Vec3.x heq
        simp only at hc
        have : lcm3 hkl.x hkl.y hkl.z / hkl.x = 0 := by linarith [neg_eq_zero.mp hc]
        rw [this, mul_zero] at e1
        exact hM e1.symm
      · intro heq
        have hc := congrArg Vec3.x heq
        simp only at hc
        have : lcm3 hkl.x hkl.y hkl.z / hkl.x = 0 := by linarith [neg_eq_zero.mp hc]
        rw [this, mul_zero] at e1
        exact hM e1.symm
      · intro heq
        rw [heq] at hx
        exact hx rfl
    · -- (hk0) case
      split at h
      · rename_i hxy
        obtain ⟨hx, hy⟩ := hxy
        injection h with h
        injection h with ht1 ht2
        subst ht1
        subst ht2
        have hdx : hkl.x ∣ lcm2 hkl.x hkl.y := dvd_lcm2_left _ _
        have hdy : hkl.y ∣ lcm2 hkl.x hkl.y := dvd_lcm2_right _ _
        have hM : lcm2 hkl.x hkl.y ≠ 0 := lcm2_ne_zero hx hy
        have e1 := Int.mul_ediv_cancel' hdx
        have e2 := Int.mul_ediv_cancel' hdy
        rename_i hall
        have hz : hkl.z = 0 := by tauto
        refine ⟨?_, ?_, ?_, ?_, ?_⟩
        · simp only [Vec3.dot]
          linear_combination e2 - e1
        · simp only [Vec3.dot]
          linear_combination hz
        · intro heq
          have hc := congrArg Vec3.x heq
          simp only at hc
          have : lcm2 hkl.x hkl.y / hkl.x = 0 := by linarith [neg_eq_zero.mp hc]
          rw [this, mul_zero] at e1
          exact hM e1.symm
        · intro heq
          have hc := congrArg Vec3.z heq
          simp only at hc
          exact one_ne_zero hc
        · intro heq
          rw [heq] at hx
          exact hx rfl
      · split at h
        · rename_i hxz
          obtain ⟨hx, hzz⟩ := hxz
          injection h with h
          injection h with ht1 ht2
          subst ht1
          subst ht2
          have hdx : hkl.x ∣ lcm2 hkl.x hkl.z := dvd_lcm2_left _ _
          have hdz : hkl.z ∣ lcm2 hkl.x hkl.z := dvd_lcm2_right _ _
          have hM : lcm2 hkl.x hkl.z ≠ 0 := lcm2_ne_zero hx hzz
          have e1 := Int.mul_ediv_cancel' hdx
          have e3 := Int.mul_ediv_cancel' hdz
          rename_i hall hxy
          have hy : hkl.y = 0 := by tauto
          refine ⟨?_, ?_, ?_, ?_, ?_⟩
          · simp only [Vec3.dot]
            linear_combination e3 - e1
          · simp only [Vec3.dot]
            linear_combination hy
          · intro heq
            have hc := congrArg Vec3.x heq
            simp only at hc
            have : lcm2 hkl.x hkl.z / hkl.x = 0 := by linarith [neg_eq_zero.mp hc]
            rw [this, mul_zero] at e1
            exact hM e1.symm
          · intro heq
            have hc := congrArg Vec3.y heq
            simp only at hc
            exact one_ne_zero hc
          · intro heq
            rw [heq] at hx
            exact hx rfl
        · split at h
          · rename_i hyz
            obtain ⟨hy, hzz⟩ := hyz
            injection h with h
            injection h with ht1 ht2
            subst ht1
            subst ht2
            have hdy : hkl.y ∣ lcm2 hkl.y hkl.z := dvd_lcm2_left _ _
            have hdz : hkl.z ∣ lcm2 hkl.y hkl.z := dvd_lcm2_right _ _
            have hM : lcm2 hkl.y hkl.z ≠ 0 := lcm2_ne_zero hy hzz
            have e2 := Int.mul_ediv_cancel' hdy
            have e3 := Int.mul_ediv_cancel' hdz
            rename_i hall hxy hxz
            have hx : hkl.x = 0 := by tauto
            refine ⟨?_, ?_, ?_, ?_, ?_⟩
            · simp only [Vec3.dot]
              linear_combination e3 - e2
            · simp only [Vec3.dot]
              linear_combination hx
            · intro heq
              have hc := congrArg Vec3.y heq
              simp only at hc
              have : lcm2 hkl.y hkl.z / hkl.y = 0 := by linarith [neg_eq_zero.mp hc]
              rw [this, mul_zero] at e2
              exact hM e2.symm
            · intro heq
              have hc := congrArg Vec3.x heq
              simp only at hc
              exact one_ne_zero hc
            · intro heq
              rw [heq] at hy
              exact hy rfl
          · split at h
            · rename_i hall hxy hxz hyz hx
              injection h with h
              injection h with ht1 ht2
              subst ht1
              subst ht2
              have hy : hkl.y = 0 := by tauto
              have hz : hkl.z = 0 := by tauto
              refine ⟨?_, ?_, ?_, ?_, ?_⟩
              · simp only [Vec3.dot]
                linear_combination hy
              · simp only [Vec3.dot]
                linear_combination hz
              · intro heq
                exact one_ne_zero (congrArg Vec3.y heq)
              · intro heq
                exact one_ne_zero (congrArg Vec3.z heq)
              · intro heq
                rw [heq] at hx
                exact hx rfl
            · split at h
              · rename_i hall hxy hxz hyz hx hy
                injection h with h
                injection h with ht1 ht2
                subst ht1
                subst ht2
                have hxx : hkl.x = 0 := by tauto
                have hz : hkl.z = 0 := by tauto
                refine ⟨?_, ?_, ?_, ?_, ?_⟩
                · simp only [Vec3.dot]
                  linear_combination hz
                · simp only [Vec3.dot]
                  linear_combination hxx
                · intro heq
                  exact one_ne_zero (congrArg Vec3.z heq)
                · intro heq
                  exact one_ne_zero (congrArg Vec3.x heq)
                · intro heq
                  rw [heq] at hy
                  exact hy rfl
              · rename_i hall hxy hxz hyz hx hy
                injection h with h
                injection h with ht1 ht2
                subst ht1
                subst ht2
                have hxx : hkl.x = 0 := by tauto
                have hyy : hkl.y = 0 := by tauto
                refine ⟨?_, ?_, ?_, ?_, ?_⟩
                · simp only [Vec3.dot]
                  linear_combination hxx
                · simp only [Vec3.dot]
                  linear_combination hyy
                · intro heq
                  exact one_ne_zero (congrArg Vec3.x heq)
                · intro heq
                  exact one_ne_zero (congrArg Vec3.y heq)
                · intro heq
                  apply hz0
                  rw [heq]
                  exact ⟨rfl, rfl, rfl⟩

theorem gcd3_dvd (p : Vec3 ℤ) :
    ((gcd3 p : ℕ) : ℤ) ∣ p.x ∧ ((gcd3 p : ℕ) : ℤ) ∣ p.y ∧ ((gcd3 p : ℕ) : ℤ) ∣ p.z := by
  refine ⟨Int.dvd_natAbs.mp (Int.natCast_dvd_natCast.mpr ?_),
    Int.dvd_natAbs.mp (Int.natCast_dvd_natCast.mpr ?_),
    Int.dvd_natAbs.mp (Int.natCast_dvd_natCast.mpr ?_)⟩
  · exact dvd_trans (Nat.gcd_dvd_left _ _) (Nat.gcd_dvd_left _ _)
  · exact dvd_trans (Nat.gcd_dvd_left _ _) (Nat.gcd_dvd_right _ _)
  · exact Nat.gcd_dvd_right _ _

/-- Reduction to lowest terms keeps the vector in the plane. -/
theorem reduceVec_dot (hkl p : Vec3 ℤ) (h : Vec3.dot hkl p = 0) :
    Vec3.dot hkl (reduceVec p) = 0 := by
  unfold reduceVec
  split
  · exact h
  · next hg =>
      obtain ⟨d1, d2, d3⟩ := gcd3_dvd p
      have f1 := Int.ediv_mul_cancel d1
      have f2 := Int.ediv_mul_cancel d2
      have f3 := Int.ediv_mul_cancel d3
      simp only [Vec3.dot] at h ⊢
      have key : (hkl.x * (p.x / ((gcd3 p : ℕ) : ℤ)) + hkl.y * (p.y / ((gcd3 p : ℕ) : ℤ)) +
          hkl.z * (p.z / ((gcd3 p : ℕ) : ℤ))) * ((gcd3 p : ℕ) : ℤ) = 0 := by
        linear_combination hkl.x * f1 + hkl.y * f2 + hkl.z * f3 + h
      exact (mul_eq_zero.mp key).resolve_right hg

/-- Reduction to lowest terms keeps the vector nonzero. -/
theorem reduceVec_ne (p : Vec3 ℤ) (h : p ≠ ⟨0, 0, 0⟩) : reduceVec p ≠ ⟨0, 0, 0⟩ := by
  unfold reduceVec
  split
  · exact h
  · next hg =>
      intro heq
      obtain ⟨d1, d2, d3⟩ := gcd3_dvd p
      have f1 := Int.ediv_mul_cancel d1
      have f2 := Int.ediv_mul_cancel d2
      have f3 := Int.ediv_mul_cancel d3
      have hx := congrArg Vec3.x heq
      have hy := congrArg Vec3.y heq
      have hz := congrArg Vec3.z heq
      simp only at hx hy hz
      apply h
      apply Vec3.ext_comp
      · rw [hx, zero_mul] at f1
        exact f1.symm
      · rw [hy, zero_mul] at f2
        exact f2.symm
      · rw [hz, zero_mul] at f3
        exact f3.symm

/-- Lagrange identity for three-component integer vectors. -/
theorem lagrange_int (p q : Vec3 ℤ) :
    Vec3.dot p q ^ 2 + Vec3.dot (Vec3.cross p q) (Vec3.cross p q) =
      Vec3.dot p p * Vec3.dot q q := by
  simp only [Vec3.dot, Vec3.cross]
  ring

/-- Cauchy-Schwarz for integer vectors. -/
theorem dot_sq_le (p q : Vec3 ℤ) :
    Vec3.dot p q ^ 2 ≤ Vec3.dot p p * Vec3.dot q q := by
  have h := lagrange_int p q
  nlinarith [dot_self_nonneg (Vec3.cross p q)]

/-- Strict Cauchy-Schwarz for non-parallel integer vectors. -/
theorem dot_sq_lt (p q : Vec3 ℤ) (h : Vec3.cross p q ≠ ⟨0, 0, 0⟩) :
    Vec3.dot p q ^ 2 < Vec3.dot p p * Vec3.dot q q := by
  have h2 := lagrange_int p q
  nlinarith [dot_self_pos (Vec3.cross p q) h]

/-- An integer vector parallel to a coprime integer vector is an integer
multiple of it. -/
theorem eq_smul_of_cross_eq_zero (z v : Vec3 ℤ) (hcop : gcd3 z = 1)
    (hcross : Vec3.cross z v = ⟨0, 0, 0⟩) : ∃ m : ℤ, v = Vec3.smul m z := by
  have h1 : z.y * v.z - z.z * v.y = 0 := congrArg Vec3.x hcross
  have h2 : z.z * v.x - z.x * v.z = 0 := congrArg Vec3.y hcross
  have h3 : z.x * v.y - z.y * v.x = 0 := congrArg Vec3.z hcross
  have hgeq : Int.gcd ((Int.gcd z.x z.y : ℕ) : ℤ) z.z = gcd3 z := by
    simp [gcd3, Int.gcd]
  have b2 : ((Int.gcd z.x z.y : ℕ) : ℤ) =
      z.x * Int.gcdA z.x z.y + z.y * Int.gcdB z.x z.y := Int.gcd_eq_gcd_ab z.x z.y
  have b3 : ((Int.gcd ((Int.gcd z.x z.y : ℕ) : ℤ) z.z : ℕ) : ℤ) =
      ((Int.gcd z.x z.y : ℕ) : ℤ) * Int.gcdA ((Int.gcd z.x z.y : ℕ) : ℤ) z.z +
        z.z * Int.gcdB ((Int.gcd z.x z.y : ℕ) : ℤ) z.z :=
    Int.gcd_eq_gcd_ab ((Int.gcd z.x z.y : ℕ) : ℤ) z.z
  rw [hgeq, hcop] at b3
  set A1 := Int.gcdA z.x z.y with hA1
  set B1 := Int.gcdB z.x z.y with hB1
  set A2 := Int.gcdA ((Int.gcd z.x z.y : ℕ) : ℤ) z.z with hA2
  set B2 := Int.gcdB ((Int.gcd z.x z.y : ℕ) : ℤ) z.z with hB2
  have hbez : z.x * (A1 * A2) + z.y * (B1 * A2) + z.z * B2 = 1 := by
    push_cast at b3
    linear_combination (-A2) * b2 - b3
  refine ⟨(A1 * A2) * v.x + (B1 * A2) * v.y + B2 * v.z, Vec3.ext_comp ?_ ?_ ?_⟩ <;>
    simp only [Vec3.smul]
  · linear_combination (-v.x) * hbez - (B1 * A2) * h3 + B2 * h2
  · linear_combination (-v.y) * hbez + (A1 * A2) * h3 - B2 * h1
  · linear_combination (-v.z) * hbez - (A1 * A2) * h2 + (B1 * A2) * h1

theorem vec_neg_eq_zero {α : Type} [AddGroup α] (p : Vec3 α) :
    Vec3.neg p = ⟨0, 0, 0⟩ ↔ p = ⟨0, 0, 0⟩ := by
  constructor
  · intro h
    have hx := congrArg Vec3.x h
    have hy := congrArg Vec3.y h
    have hz := congrArg Vec3.z h
    simp only [Vec3.neg, neg_eq_zero] at hx hy hz
    exact Vec3.ext_comp hx hy hz
  · intro h
    rw [h]
    apply Vec3.ext_comp <;> simp [Vec3.neg]

theorem vec_sub_eq_zero (p q : Vec3 ℚ) : Vec3.sub p q = ⟨0, 0, 0⟩ ↔ p = q := by
  constructor
  · intro h
    have hx := congrArg Vec3.x h
    have hy := congrArg Vec3.y h
    have hz := congrArg Vec3.z h
    simp only [Vec3.sub, sub_eq_zero] at hx hy hz
    exact Vec3.ext_comp hx hy hz
  · intro h
    rw [h]
    apply Vec3.ext_comp <;> simp [Vec3.sub]

theorem dot_vec_zero {α : Type} [CommRing α] (p : Vec3 α) :
    Vec3.dot p (⟨0, 0, 0⟩ : Vec3 α) = 0 := by
  simp [Vec3.dot]

theorem smul_zero_coeff {α : Type} [CommRing α] (p : Vec3 α) :
    Vec3.smul (0 : α) p = ⟨0, 0, 0⟩ := by
  apply Vec3.ext_comp <;> simp [Vec3.smul]

theorem triple_eq_dot_cross {α : Type} [CommRing α] (p q r : Vec3 α) :
    Vec3.triple p q r = Vec3.dot (Vec3.cross p q) r := by
  simp only [Vec3.triple, Vec3.dot, Vec3.cross]
  ring

theorem cartInt_neg (L : Mat3) (p : Vec3 ℤ) :
    cartInt L (Vec3.neg p) = Vec3.neg (cartInt L p) := by
  apply Vec3.ext_comp <;>
    simp only [cartInt, Vec3.neg, Vec3.add, Vec3.smul] <;> ring

theorem recipComb_eq_smul_det (L : Mat3) (hkl : Vec3 ℤ) (hdet : L.det ≠ 0) :
    recipComb L hkl = Vec3.smul L.det (trueNormal L hkl) := by
  apply Vec3.ext_comp <;>
    simp only [trueNormal, Vec3.smul] <;>
    field_simp

/-- The handedness fix never changes anything but the sign, and afterwards
the integer orientation test is nonnegative. -/
theorem orientB_post (L : Mat3) (hkl a b0 : Vec3 ℤ) :
    0 ≤ Vec3.dot (Vec3.cross (cartInt L a) (cartInt L (orientB L hkl a b0)))
        (wInt L hkl) * L.detInt := by
  unfold orientB
  split
  · next hneg =>
      rw [cartInt_neg, cross_neg_right, dot_neg_left]
      nlinarith [hneg]
  · next hpos =>
      exact not_lt.mp hpos

theorem orientB_cases (L : Mat3) (hkl a b0 : Vec3 ℤ) :
    orientB L hkl a b0 = b0 ∨ orientB L hkl a b0 = Vec3.neg b0 := by
  unfold orientB
  split
  · right
    rfl
  · left
    rfl

/-- Destructuring of a successful core run into its search components. -/
theorem fsCore_ok_elim (hkl : Vec3 ℤ) (L : Mat3) (nopt : Option ℕ) (a b c : Vec3 ℤ)
    (hok : fsCore hkl L nopt = Except.ok (a, b, c)) :
    ∃ t1r t2r b0 : Vec3 ℤ,
      inPlaneTemplates hkl = some (t1r, t2r) ∧
      a = selectA L (reduceVec t1r) (reduceVec t2r) (fsWindow hkl nopt) ∧
      selectB L a (reduceVec t1r) (reduceVec t2r) (fsWindow hkl nopt) = some b0 ∧
      b = orientB L hkl a b0 ∧
      selectC L hkl (fsWindow hkl nopt) = some c := by
  unfold fsCore at hok
  split at hok
  · exact absurd hok (by simp)
  · next t12 heq =>
      unfold fsSearch at hok
      split at hok
      · exact absurd hok (by simp)
      · next b0 hsb =>
          split at hok
          · exact absurd hok (by simp)
          · next c2 hsc =>
              injection hok with hok
              rw [Prod.mk.injEq, Prod.mk.injEq] at hok
              obtain ⟨h1, h2, h3⟩ := hok
              refine ⟨t12.1, t12.2, b0, ?_, ?_, ?_, ?_, ?_⟩
              · rw [heq]
              · exact h1.symm
              · rw [← h1]
                exact hsb
              · rw [h1] at h2
                exact h2.symm
              · rw [h3] at hsc
                exact hsc

theorem dot_smul_left {α : Type} [CommRing α] (c : α) (p q : Vec3 α) :
    Vec3.dot (Vec3.smul c p) q = c * Vec3.dot p q := by
  simp only [Vec3.dot, Vec3.smul]
  ring

theorem dot_smul_right {α : Type} [CommRing α] (c : α) (p q : Vec3 α) :
    Vec3.dot p (Vec3.smul c q) = c * Vec3.dot p q := by
  simp only [Vec3.dot, Vec3.smul]
  ring

theorem cross_smul_left {α : Type} [CommRing α] (c : α) (p q : Vec3 α) :
    Vec3.cross (Vec3.smul c p) q = Vec3.smul c (Vec3.cross p q) := by
  apply Vec3.ext_comp <;> simp only [Vec3.cross, Vec3.smul] <;> ring

/-- Geometric facts of a successful core run: the Cartesian cross product of
the two in-plane vectors is a positive multiple of the true plane normal,
and the out-of-plane vector points to the positive side of the plane. -/
theorem fsCore_main_facts (hkl : Vec3 ℤ) (L : Mat3) (nopt : Option ℕ) (a b c : Vec3 ℤ)
    (hdet : L.det ≠ 0) (hok : fsCore hkl L nopt = Except.ok (a, b, c)) :
    ∃ lam : ℚ, 0 < lam ∧
      Vec3.cross (L.rowApply a.toRat) (L.rowApply b.toRat) =
        Vec3.smul lam (trueNormal L hkl) ∧
      0 < Vec3.dot hkl c := by
  obtain ⟨t1r, t2r, b0, heqt, ha, hsb, hb, hsc⟩ := fsCore_ok_elim hkl L nopt a b c hok
  obtain ⟨ht1, ht2, ht1z, ht2z, hhkl⟩ := templates_props hkl t1r t2r heqt
  have ht1d := reduceVec_dot hkl t1r ht1
  have ht2d := reduceVec_dot hkl t2r ht2
  have ht1n := reduceVec_ne t1r ht1z
  have hA0 := selectA_props L hkl (reduceVec t1r) (reduceVec t2r) (fsWindow hkl nopt)
    ht1d ht2d ht1n
  rw [← ha] at hA0
  have hB0 := selectB_props L a hkl (reduceVec t1r) (reduceVec t2r) (fsWindow hkl nopt)
    ht1d ht2d b0 hsb
  have hBdot : Vec3.dot hkl b = 0 := by
    rcases orientB_cases L hkl a b0 with hcase | hcase
    · rw [hb, hcase]
      exact hB0.1
    · rw [hb, hcase, dot_neg_right, hB0.1, neg_zero]
  have hBcross : Vec3.cross a b ≠ ⟨0, 0, 0⟩ := by
    rcases orientB_cases L hkl a b0 with hcase | hcase
    · rw [hb, hcase]
      exact hB0.2
    · rw [hb, hcase, cross_neg_right]
      intro h0
      exact hB0.2 ((vec_neg_eq_zero _).mp h0)
  have hadot : Vec3.dot (L.rowApply a.toRat) (trueNormal L hkl) = 0 := by
    rw [dot_rowApply_trueNormal L hkl a.toRat hdet, ← toRat_dot, hA0.1]
    norm_num
  have hbdot : Vec3.dot (L.rowApply b.toRat) (trueNormal L hkl) = 0 := by
    rw [dot_rowApply_trueNormal L hkl b.toRat hdet, ← toRat_dot, hBdot]
    norm_num
  have hNne : trueNormal L hkl ≠ ⟨0, 0, 0⟩ := by
    intro h0
    have hp := dot_rowApply_trueNormal L hkl hkl.toRat hdet
    rw [h0, dot_vec_zero] at hp
    have hhklQ : hkl.toRat ≠ ⟨0, 0, 0⟩ := fun hq => hhkl ((toRat_eq_zero_iff hkl).mp hq)
    have hs := dot_self_pos hkl.toRat hhklQ
    rw [← hp] at hs
    exact lt_irrefl 0 hs
  have hz_perp : Vec3.cross
      (Vec3.cross (L.rowApply a.toRat) (L.rowApply b.toRat)) (trueNormal L hkl) =
      ⟨0, 0, 0⟩ := by
    rw [cross_cross_expand, hadot, hbdot]
    apply Vec3.ext_comp <;> simp [Vec3.sub, Vec3.smul]
  obtain ⟨lam, hz_eq⟩ := collinear_of_cross_eq_zero _ _ hNne hz_perp
  have haQ : a.toRat ≠ ⟨0, 0, 0⟩ := fun hq => hA0.2 ((toRat_eq_zero_iff a).mp hq)
  have hRa_ne : L.rowApply a.toRat ≠ ⟨0, 0, 0⟩ :=
    fun h0 => haQ (rowApply_eq_zero_imp L a.toRat hdet h0)
  have hz_ne : Vec3.cross (L.rowApply a.toRat) (L.rowApply b.toRat) ≠ ⟨0, 0, 0⟩ := by
    intro h0
    have hba : Vec3.cross (L.rowApply b.toRat) (L.rowApply a.toRat) = ⟨0, 0, 0⟩ := by
      rw [cross_swap, h0]
      apply Vec3.ext_comp <;> simp [Vec3.neg]
    obtain ⟨mu, hmu⟩ := collinear_of_cross_eq_zero _ _ hRa_ne hba
    have hsub : L.rowApply (Vec3.sub b.toRat (Vec3.smul mu a.toRat)) = ⟨0, 0, 0⟩ := by
      rw [rowApply_sub_smul, hmu]
      apply Vec3.ext_comp <;> simp [Vec3.sub, Vec3.smul]
    have hzero := rowApply_eq_zero_imp L _ hdet hsub
    have hbeq : b.toRat = Vec3.smul mu a.toRat := (vec_sub_eq_zero _ _).mp hzero
    have hcrossQ : Vec3.cross a.toRat b.toRat = ⟨0, 0, 0⟩ := by
      rw [hbeq, cross_smul_right, cross_self]
      apply Vec3.ext_comp <;> simp [Vec3.smul]
    have hcz : (Vec3.cross a b).toRat = ⟨0, 0, 0⟩ := by
      rw [toRat_cross, hcrossQ]
    exact hBcross ((toRat_eq_zero_iff _).mp hcz)
  have hlam_ne : lam ≠ 0 := by
    intro h0
    rw [h0, smul_zero_coeff] at hz_eq
    exact hz_ne hz_eq
  have hcpos : 0 < Vec3.dot hkl c := selectC_dot_pos L hkl (fsWindow hkl nopt) hdet c hsc
  have hDpos : (0 : ℚ) < ((L.den : ℕ) : ℚ) := by exact_mod_cast den_pos L
  have hNsq : (0 : ℚ) < Vec3.dot (trueNormal L hkl) (trueNormal L hkl) :=
    dot_self_pos _ hNne
  have hOpost := orientB_post L hkl a b0
  rw [← hb] at hOpost
  have hcastU : ((Vec3.dot (Vec3.cross (cartInt L a) (cartInt L b)) (wInt L hkl) : ℤ) : ℚ) =
      ((L.den : ℕ) : ℚ) ^ 4 *
        (lam * (L.det *
          Vec3.dot (trueNormal L hkl) (trueNormal L hkl))) := by
    rw [toRat_dot, toRat_cross, cartInt_cast, cartInt_cast, wInt_cast,
      cross_smul_left, cross_smul_right, hz_eq, recipComb_eq_smul_det L hkl hdet]
    simp only [dot_smul_left, dot_smul_right]
    ring
  have hOcast : (0 : ℚ) ≤
      ((Vec3.dot (Vec3.cross (cartInt L a) (cartInt L b)) (wInt L hkl) : ℤ) : ℚ) *
        ((L.detInt : ℤ) : ℚ) := by
    have : (0 : ℚ) ≤
        (((Vec3.dot (Vec3.cross (cartInt L a) (cartInt L b)) (wInt L hkl) *
          L.detInt : ℤ)) : ℚ) := by
      exact_mod_cast hOpost
    rw [Int.cast_mul] at this
    exact this
  rw [hcastU, detInt_cast] at hOcast
  have hdet2 : (0 : ℚ) < L.det ^ 2 := by
    rcases lt_or_gt_of_ne hdet with hlt | hgt
    · nlinarith [hlt]
    · nlinarith [hgt]
  have hfact : ((L.den : ℕ) : ℚ) ^ 4 * (lam * (L.det *
      Vec3.dot (trueNormal L hkl) (trueNormal L hkl))) * (((L.den : ℕ) : ℚ) ^ 3 * L.det) =
      (((L.den : ℕ) : ℚ) ^ 7 * L.det ^ 2 *
        Vec3.dot (trueNormal L hkl) (trueNormal L hkl)) * lam := by
    ring
  rw [hfact] at hOcast
  have hposfac : (0 : ℚ) < ((L.den : ℕ) : ℚ) ^ 7 * L.det ^ 2 *
      Vec3.dot (trueNormal L hkl) (trueNormal L hkl) :=
    mul_pos (mul_pos (pow_pos hDpos 7) hdet2) hNsq
  have hlam_pos : 0 < lam := by
    rcases lt_or_gt_of_ne hlam_ne with hlt | hgt
    · exfalso
      have := mul_neg_of_pos_of_neg hposfac hlt
      linarith
    · exact hgt
  exact ⟨lam, hlam_pos, hz_eq, hcpos⟩

/-- C3: for every successful core run on a valid plane and invertible
lattice, the cross product of the Cartesian images of the two in-plane
vectors is a nonzero multiple of (parallel to) the true plane normal, and
the out-of-plane vector is linearly independent of them (nonzero scalar
triple product). -/
theorem claim_C3_inplane_cross_parallel_normal (hkl : Vec3 ℤ) (L : Mat3)
    (nopt : Option ℕ) (a b c : Vec3 ℤ) (hdet : L.det ≠ 0)
    (hok : fsCore hkl L nopt = Except.ok (a, b, c)) :
    (∃ lam : ℚ, lam ≠ 0 ∧
      Vec3.cross (L.rowApply a.toRat) (L.rowApply b.toRat) =
        Vec3.smul lam (trueNormal L hkl)) ∧
    Vec3.triple (L.rowApply a.toRat) (L.rowApply b.toRat) (L.rowApply c.toRat) ≠ 0 := by
  obtain ⟨lam, hpos, heq, hcpos⟩ := fsCore_main_facts hkl L nopt a b c hdet hok
  refine ⟨⟨lam, ne_of_gt hpos, heq⟩, ?_⟩
  rw [triple_eq_dot_cross, heq, dot_smul_left]
  have hpair : Vec3.dot (trueNormal L hkl) (L.rowApply c.toRat) =
      ((Vec3.dot hkl c : ℤ) : ℚ) := by
    rw [dot_comm, dot_rowApply_trueNormal L hkl c.toRat hdet, ← toRat_dot]
  rw [hpair]
  apply mul_ne_zero (ne_of_gt hpos)
  exact_mod_cast ne_of_gt hcpos

set_option maxRecDepth 10000 in
/-- Witness for C3 at the cubic unit box and plane (0,0,1). -/
theorem claim_C3_witness :
    (∃ lam : ℚ, lam ≠ 0 ∧
      Vec3.cross ((cubeBox 1).rowApply (Vec3.toRat ⟨1, 0, 0⟩))
          ((cubeBox 1).rowApply (Vec3.toRat ⟨0, 1, 0⟩)) =
        Vec3.smul lam (trueNormal (cubeBox 1) ⟨0, 0, 1⟩)) ∧
    Vec3.triple ((cubeBox 1).rowApply (Vec3.toRat ⟨1, 0, 0⟩))
      ((cubeBox 1).rowApply (Vec3.toRat ⟨0, 1, 0⟩))
      ((cubeBox 1).rowApply (Vec3.toRat ⟨0, 0, 1⟩)) ≠ 0 :=
  claim_C3_inplane_cross_parallel_normal ⟨0, 0, 1⟩ (cubeBox 1) none
    ⟨1, 0, 0⟩ ⟨0, 1, 0⟩ ⟨0, 0, 1⟩
    (by norm_num [Mat3.det, cubeBox, Vec3.triple, Vec3.dot, Vec3.cross])
    (by decide)

/-- C8: for every successful core run on a positively-oriented lattice, the
returned ordered triple of [uvw] vectors is right-handed: the determinant of
the 3x3 integer matrix with rows a, b, c (their scalar triple product) is
positive. -/
theorem claim_C8_right_handed_basis (hkl : Vec3 ℤ) (L : Mat3) (nopt : Option ℕ)
    (a b c : Vec3 ℤ) (hdetpos : 0 < L.det)
    (hok : fsCore hkl L nopt = Except.ok (a, b, c)) :
    0 < Vec3.triple a b c := by
  have hdet : L.det ≠ 0 := ne_of_gt hdetpos
  obtain ⟨lam, hlam, heq, hcpos⟩ := fsCore_main_facts hkl L nopt a b c hdet hok
  have htrip : Vec3.triple (L.rowApply a.toRat) (L.rowApply b.toRat)
      (L.rowApply c.toRat) = lam * ((Vec3.dot hkl c : ℤ) : ℚ) := by
    rw [triple_eq_dot_cross, heq, dot_smul_left]
    have hpair : Vec3.dot (trueNormal L hkl) (L.rowApply c.toRat) =
        ((Vec3.dot hkl c : ℤ) : ℚ) := by
      rw [dot_comm, dot_rowApply_trueNormal L hkl c.toRat hdet, ← toRat_dot]
    rw [hpair]
  have h1 : L.det * Vec3.triple a.toRat b.toRat c.toRat =
      lam * ((Vec3.dot hkl c : ℤ) : ℚ) := by
    rw [← triple_rowApply]
    exact htrip
  have h2 : (0 : ℚ) < lam * ((Vec3.dot hkl c : ℤ) : ℚ) :=
    mul_pos hlam (by exact_mod_cast hcpos)
  have h3 : (0 : ℚ) < Vec3.triple a.toRat b.toRat c.toRat := by
    by_contra hc3
    push_neg at hc3
    have : L.det * Vec3.triple a.toRat b.toRat c.toRat ≤ 0 :=
      mul_nonpos_of_nonneg_of_nonpos (le_of_lt hdetpos) hc3
    rw [h1] at this
    linarith
  have h4 : ((Vec3.triple a b c : ℤ) : ℚ) = Vec3.triple a.toRat b.toRat c.toRat :=
    toRat_triple a b c
  rw [← h4] at h3
  exact_mod_cast h3

set_option maxRecDepth 10000 in
/-- Witness for C8 at the cubic unit box and plane (0,0,1). -/
theorem claim_C8_witness :
    0 < Vec3.triple (⟨1, 0, 0⟩ : Vec3 ℤ) ⟨0, 1, 0⟩ ⟨0, 0, 1⟩ :=
  claim_C8_right_handed_basis ⟨0, 0, 1⟩ (cubeBox 1) none
    ⟨1, 0, 0⟩ ⟨0, 1, 0⟩ ⟨0, 0, 1⟩
    (by norm_num [Mat3.det, cubeBox, Vec3.triple, Vec3.dot, Vec3.cross])
    (by decide)

theorem okey_le_two_mul {n : ℕ} {x : ℤ} (h : x.natAbs ≤ n) : okey x ≤ 2 * n := by
  unfold okey
  split <;> omega

theorem okey_pos_val (m : ℕ) : okey ((m : ℤ) + 1) = 2 * m + 1 := by
  unfold okey
  split <;> omega

theorem okey_neg_val (m : ℕ) : okey (-((m : ℤ) + 1)) = 2 * m + 2 := by
  unfold okey
  split <;> omega

/-- The coefficient enumeration is strictly increasing in okey. -/
theorem coeffSeq_pairwise (n : ℕ) :
    (coeffSeq n).Pairwise (fun a b => okey a < okey b) := by
  induction n with
  | zero =>
      simp [coeffSeq]
  | succ m ih =>
      rw [coeffSeq_succ, List.pairwise_append]
      refine ⟨ih, ?_, ?_⟩
      · refine List.Pairwise.cons ?_ (List.pairwise_singleton _ _)
        intro y hy
        simp only [List.mem_singleton] at hy
        subst hy
        rw [okey_pos_val, okey_neg_val]
        omega
      · intro x hx y hy
        have hxle : okey x ≤ 2 * m := okey_le_two_mul ((mem_coeffSeq m x).mp hx)
        simp only [List.mem_cons, List.mem_singleton, List.not_mem_nil, or_false] at hy
        rcases hy with rfl | rfl
        · rw [okey_pos_val]
          omega
        · rw [okey_neg_val]
          omega

theorem okey_lt_B {n : ℕ} {x : ℤ} (h : x.natAbs ≤ n) : okey x < 2 * n + 1 := by
  have := okey_le_two_mul h
  omega

/-- The window enumeration is strictly increasing in rank. -/
theorem windowTriples_pairwise (n : ℕ) :
    (windowTriples n).Pairwise (fun u v => rank n u < rank n v) := by
  unfold windowTriples
  rw [List.pairwise_flatten]
  constructor
  · intro l hl
    simp only [List.mem_map] at hl
    obtain ⟨jx, hjx, rfl⟩ := hl
    rw [List.pairwise_flatten]
    constructor
    · intro l2 hl2
      simp only [List.mem_map] at hl2
      obtain ⟨jy, hjy, rfl⟩ := hl2
      rw [List.pairwise_map]
      apply List.Pairwise.imp ?_ (coeffSeq_pairwise n)
      intro a b hab
      unfold rank
      simp only
      omega
    · rw [List.pairwise_map]
      apply List.Pairwise.imp ?_ (coeffSeq_pairwise n)
      intro a b hab
      intro u hu v hv
      simp only [List.mem_map] at hu hv
      obtain ⟨za, hza, rfl⟩ := hu
      obtain ⟨zb, hzb, rfl⟩ := hv
      unfold rank
      simp only
      have h1 : okey za < 2 * n + 1 := okey_lt_B ((mem_coeffSeq n za).mp hza)
      have h2 : okey zb < 2 * n + 1 := okey_lt_B ((mem_coeffSeq n zb).mp hzb)
      nlinarith [hab, h1, h2]
  · rw [List.pairwise_map]
    apply List.Pairwise.imp ?_ (coeffSeq_pairwise n)
    intro a b hab
    intro u hu v hv
    simp only [List.mem_flatten, List.mem_map] at hu hv
    obtain ⟨lu, ⟨ya, hya, rfl⟩, hu2⟩ := hu
    obtain ⟨lv, ⟨yb, hyb, rfl⟩, hv2⟩ := hv
    simp only [List.mem_map] at hu2 hv2
    obtain ⟨za, hza, rfl⟩ := hu2
    obtain ⟨zb, hzb, rfl⟩ := hv2
    unfold rank
    simp only
    have hz1 : okey za < 2 * n + 1 := okey_lt_B ((mem_coeffSeq n za).mp hza)
    zify
    have hBpos : (0 : ℤ) < 2 * (n : ℤ) + 1 := by positivity
    have h1 : ((okey ya : ℕ) : ℤ) * (2 * (n : ℤ) + 1) ≤
        2 * (n : ℤ) * (2 * (n : ℤ) + 1) := by
      have hya2 : ((okey ya : ℕ) : ℤ) ≤ 2 * (n : ℤ) := by
        exact_mod_cast okey_le_two_mul ((mem_coeffSeq n ya).mp hya)
      nlinarith
    have h2 : (((okey a : ℕ) : ℤ) + 1) * ((2 * (n : ℤ) + 1) * (2 * (n : ℤ) + 1)) ≤
        ((okey b : ℕ) : ℤ) * ((2 * (n : ℤ) + 1) * (2 * (n : ℤ) + 1)) := by
      have hab2 : ((okey a : ℕ) : ℤ) + 1 ≤ ((okey b : ℕ) : ℤ) := by exact_mod_cast hab
      nlinarith
    have h3 : ((okey za : ℕ) : ℤ) < 2 * (n : ℤ) + 1 := by exact_mod_cast hz1
    have h4 : (0 : ℤ) ≤ ((okey yb : ℕ) : ℤ) := by positivity
    have h5 : (0 : ℤ) ≤ ((okey zb : ℕ) : ℤ) := by positivity
    nlinarith [h1, h2, h3, h4, h5, mul_nonneg h4 (le_of_lt hBpos)]

theorem okey_lt_of_natAbs_lt {x y : ℤ} (h : x.natAbs < y.natAbs) : okey x < okey y := by
  unfold okey
  split <;> split <;> omega

/-- Base-B lexicographic keys respect lexicographic order on digit triples. -/
theorem lexkey_lt {B ax ay az bx byy bz : ℕ} (hay : ay < B) (haz : az < B)
    (h : ax < bx ∨ (ax = bx ∧ (ay < byy ∨ (ay = byy ∧ az < bz)))) :
    (ax * B + ay) * B + az < (bx * B + byy) * B + bz := by
  have hB : 0 < B := lt_of_le_of_lt (Nat.zero_le ay) hay
  rcases h with h1 | ⟨rfl, h2 | ⟨rfl, h3⟩⟩
  · zify
    have hBZ : (0 : ℤ) < (B : ℤ) := by exact_mod_cast hB
    have e2 : ((ax : ℤ) + 1) * ((B : ℤ) * (B : ℤ)) ≤ (bx : ℤ) * ((B : ℤ) * (B : ℤ)) := by
      have hx : (ax : ℤ) + 1 ≤ (bx : ℤ) := by exact_mod_cast h1
      nlinarith
    have e1 : (ay : ℤ) * (B : ℤ) ≤ ((B : ℤ) - 1) * (B : ℤ) := by
      have hy : (ay : ℤ) ≤ (B : ℤ) - 1 := by
        have : (ay : ℤ) + 1 ≤ (B : ℤ) := by exact_mod_cast hay
        linarith
      nlinarith
    have e3 : (az : ℤ) < (B : ℤ) := by exact_mod_cast haz
    have e4 : (0 : ℤ) ≤ (byy : ℤ) := by positivity
    have e5 : (0 : ℤ) ≤ (bz : ℤ) := by positivity
    nlinarith [e1, e2, e3, e4, e5, mul_nonneg e4 (le_of_lt hBZ)]
  · zify
    have hBZ : (0 : ℤ) < (B : ℤ) := by exact_mod_cast hB
    have e2 : ((ay : ℤ) + 1) * (B : ℤ) ≤ (byy : ℤ) * (B : ℤ) := by
      have hy : (ay : ℤ) + 1 ≤ (byy : ℤ) := by exact_mod_cast h2
      nlinarith
    have e3 : (az : ℤ) < (B : ℤ) := by exact_mod_cast haz
    have e5 : (0 : ℤ) ≤ (bz : ℤ) := by positivity
    nlinarith [e2, e3, e5]
  · omega

/-- Lexicographically smaller okey digits mean an earlier enumeration rank. -/
theorem rank_lex_lt {n : ℕ} {u v : Vec3 ℤ}
    (huy : u.y.natAbs ≤ n) (huz : u.z.natAbs ≤ n)
    (h : okey u.x < okey v.x ∨
      (u.x = v.x ∧ (okey u.y < okey v.y ∨ (u.y = v.y ∧ okey u.z < okey v.z)))) :
    rank n u < rank n v := by
  unfold rank
  apply lexkey_lt (okey_lt_B huy) (okey_lt_B huz)
  rcases h with h1 | ⟨hx, h2 | ⟨hy, h3⟩⟩
  · exact Or.inl h1
  · exact Or.inr ⟨by rw [hx], Or.inl h2⟩
  · exact Or.inr ⟨by rw [hx], Or.inr ⟨by rw [hy], h3⟩⟩

/-- A nonzero vector is enumerated strictly before any of its multiples by a
scalar of at least 2 that still lies within the window. -/
theorem rank_lt_smul (n : ℕ) (m : ℤ) (v : Vec3 ℤ) (hm : 2 ≤ m)
    (hv : v ≠ ⟨0, 0, 0⟩) (hmem : Vec3.smul m v ∈ windowTriples n) :
    rank n v < rank n (Vec3.smul m v) := by
  rw [mem_windowTriples] at hmem
  obtain ⟨hx, hy, hz⟩ := hmem
  simp only [Vec3.smul] at hx hy hz
  have hm2 : 2 ≤ m.natAbs := by omega
  have hay : (m * v.y).natAbs = m.natAbs * v.y.natAbs := Int.natAbs_mul m v.y
  have haz : (m * v.z).natAbs = m.natAbs * v.z.natAbs := Int.natAbs_mul m v.z
  rw [hay] at hy
  rw [haz] at hz
  have hvy : v.y.natAbs ≤ n := by nlinarith [hy, hm2]
  have hvz : v.z.natAbs ≤ n := by nlinarith [hz, hm2]
  by_cases hx0 : v.x = 0
  · by_cases hy0 : v.y = 0
    · have hz0 : v.z ≠ 0 := by
        intro h0
        exact hv (Vec3.ext_comp hx0 hy0 h0)
      apply rank_lex_lt hvy hvz
      right
      refine ⟨by simp [Vec3.smul, hx0], Or.inr ⟨by simp [Vec3.smul, hy0], ?_⟩⟩
      apply okey_lt_of_natAbs_lt
      simp only [Vec3.smul]
      rw [Int.natAbs_mul]
      have h1 : 1 ≤ v.z.natAbs := by omega
      nlinarith [hm2]
    · apply rank_lex_lt hvy hvz
      right
      refine ⟨by simp [Vec3.smul, hx0], Or.inl ?_⟩
      apply okey_lt_of_natAbs_lt
      simp only [Vec3.smul]
      rw [Int.natAbs_mul]
      have h1 : 1 ≤ v.y.natAbs := by omega
      nlinarith [hm2]
  · apply rank_lex_lt hvy hvz
    left
    apply okey_lt_of_natAbs_lt
    simp only [Vec3.smul]
    rw [Int.natAbs_mul]
    have h1 : 1 ≤ v.x.natAbs := by omega
    nlinarith [hm2]

/-- The common denominator of a cubic box is the denominator of its edge. -/
theorem cubeBox_den (s : ℚ) : (cubeBox s).den = s.den := by
  simp [Mat3.den, cubeBox, ratDen3]

/-- On a cubic box the integer Cartesian image is the edge numerator times
the direction. -/
theorem cartInt_cube (s : ℚ) (p : Vec3 ℤ) :
    cartInt (cubeBox s) p = Vec3.smul s.num p := by
  have hdd : ((s.den : ℕ) : ℤ) / ((s.den : ℕ) : ℤ) = 1 :=
    Int.ediv_self (by exact_mod_cast s.den_nz)
  have hden : Mat3.den ⟨⟨s, 0, 0⟩, ⟨0, s, 0⟩, ⟨0, 0, s⟩⟩ = s.den := cubeBox_den s
  apply Vec3.ext_comp <;>
    · simp only [cartInt, Mat3.ir0, Mat3.ir1, Mat3.ir2, intVec, scaleToInt,
        cubeBox, Vec3.add, Vec3.smul, hden, hdd]
      norm_num
      try ring

/-- On a cubic box the integer squared length is proportional to the plain
integer dot square. -/
theorem len2Int_cube (s : ℚ) (p : Vec3 ℤ) :
    len2Int (cubeBox s) p = s.num ^ 2 * Vec3.dot p p := by
  rw [len2Int, cartInt_cube]
  simp only [Vec3.dot, Vec3.smul]
  ring

/-- On a cubic box the plane itself beats every candidate that either points
to the negative side or is not parallel to it. -/
theorem angleBetter_cubic_true (s : ℚ) (hkl w : Vec3 ℤ) (hs : 0 < s)
    (hhkl : hkl ≠ ⟨0, 0, 0⟩)
    (h : Vec3.dot hkl w < 0 ∨ Vec3.cross hkl w ≠ ⟨0, 0, 0⟩) :
    angleBetter (cubeBox s) hkl hkl w = true := by
  have hN : 0 < s.num := Rat.num_pos.mpr hs
  have hd : 0 < Vec3.dot hkl hkl := dot_self_pos hkl hhkl
  simp only [angleBetter, len2Int_cube]
  rw [if_pos (le_of_lt hd)]
  simp only [Bool.or_eq_true, decide_eq_true_eq]
  rcases h with hneg | hcross
  · exact Or.inl hneg
  · rcases lt_or_le (Vec3.dot hkl w) 0 with hneg | hpos
    · exact Or.inl hneg
    · right
      have hcs := dot_sq_lt hkl w hcross
      nlinarith [mul_pos (mul_pos (pow_pos hN 2) hd) (sub_pos.mpr hcs)]

/-- On a cubic box no candidate strictly beats the plane itself. -/
theorem angleBetter_cubic_false (s : ℚ) (hkl w : Vec3 ℤ) (hs : 0 < s)
    (hhkl : hkl ≠ ⟨0, 0, 0⟩) :
    angleBetter (cubeBox s) hkl w hkl = false := by
  have hN : 0 < s.num := Rat.num_pos.mpr hs
  have hd : 0 < Vec3.dot hkl hkl := dot_self_pos hkl hhkl
  simp only [angleBetter, len2Int_cube]
  split
  · simp only [Bool.or_eq_false_iff, decide_eq_false_iff_not, not_lt]
    refine ⟨le_of_lt hd, ?_⟩
    have hcs := dot_sq_le hkl w
    nlinarith [mul_le_mul_of_nonneg_left hcs
      (mul_nonneg (le_of_lt (pow_pos hN 2)) (le_of_lt hd))]
  · rw [decide_eq_false (not_lt.mpr (le_of_lt hd)), Bool.false_and]

/-- The out-of-plane fold returns the first valid candidate that beats every
valid candidate before it and that no later candidate strictly beats. -/
theorem foldC_first (L : Mat3) (hkl target : Vec3 ℤ) (l1 l2 : List (Vec3 ℤ))
    (htv : Vec3.dot hkl target ≠ 0)
    (hbef : ∀ w ∈ l1, Vec3.dot hkl w ≠ 0 → angleBetter L hkl target w = true)
    (haft : ∀ w ∈ l2, angleBetter L hkl w target = false) :
    (l1 ++ target :: l2).foldl (stepC L hkl) none = some target := by
  rw [List.foldl_append, List.foldl_cons]
  have hP : ∀ b, l1.foldl (stepC L hkl) none = some b →
      b ∈ l1 ∧ Vec3.dot hkl b ≠ 0 := by
    apply foldl_preserve (stepC L hkl)
      (fun ob => ∀ b, ob = some b → b ∈ l1 ∧ Vec3.dot hkl b ≠ 0)
    · intro b hb
      exact Option.noConfusion hb
    · intro v hv ob hob b hb
      cases ob with
      | none =>
          simp only [stepC] at hb
          split at hb
          · next hcond =>
              injection hb with hb
              subst hb
              exact ⟨hv, hcond⟩
          · exact Option.noConfusion hb
      | some b0 =>
          simp only [stepC] at hb
          split at hb
          · next hcond =>
              injection hb with hb
              subst hb
              exact ⟨hv, hcond.1⟩
          · injection hb with hb
            subst hb
            exact hob b0 rfl
  have hmid : stepC L hkl (l1.foldl (stepC L hkl) none) target = some target := by
    cases hacc : l1.foldl (stepC L hkl) none with
    | none =>
        simp only [stepC]
        rw [if_pos htv]
    | some b =>
        obtain ⟨hbm, hbv⟩ := hP b hacc
        simp only [stepC]
        rw [if_pos ⟨htv, hbef b hbm hbv⟩]
  rw [hmid]
  apply foldl_preserve (stepC L hkl) (fun ob => ob = some target) l2 (some target) rfl
  intro w hw ob hob
  subst hob
  have hf := haft w hw
  have hnc : ¬(Vec3.dot hkl w ≠ 0 ∧ angleBetter L hkl w target = true) := by
    rintro ⟨-, hbt⟩
    rw [hf] at hbt
    exact Bool.false_ne_true hbt
  simp only [stepC]
  rw [if_neg hnc]

/-- On a cubic box the out-of-plane search over a window containing a coprime
plane returns the plane itself: it is the first enumerated candidate
achieving the maximal cosine with the normal. -/
theorem selectC_cubic (s : ℚ) (hkl : Vec3 ℤ) (n : ℕ) (hs : 0 < s)
    (hcop : gcd3 hkl = 1) (hwin : maxAbs3 hkl ≤ n) :
    selectC (cubeBox s) hkl n = some hkl := by
  have hhkl : hkl ≠ ⟨0, 0, 0⟩ := by
    intro h0
    rw [h0] at hcop
    have hz : gcd3 (⟨0, 0, 0⟩ : Vec3 ℤ) = 0 := by decide
    rw [hz] at hcop
    exact absurd hcop (by decide)
  have hd : 0 < Vec3.dot hkl hkl := dot_self_pos hkl hhkl
  rw [maxAbs3, Nat.max_le, Nat.max_le] at hwin
  have hmem : hkl ∈ windowTriples n :=
    (mem_windowTriples n hkl).mpr ⟨hwin.1.1, hwin.1.2, hwin.2⟩
  obtain ⟨l1, l2, hsplit⟩ := List.append_of_mem hmem
  have hp := windowTriples_pairwise n
  rw [hsplit, List.pairwise_append] at hp
  obtain ⟨hp1, hp2, hp3⟩ := hp
  have hbefore : ∀ w ∈ l1, rank n w < rank n hkl :=
    fun w hw => hp3 w hw hkl (List.mem_cons_self _ _)
  have hafter : ∀ w ∈ l2, rank n hkl < rank n w := (List.pairwise_cons.mp hp2).1
  unfold selectC
  rw [hsplit]
  apply foldC_first
  · exact ne_of_gt hd
  · intro w hw hwv
    apply angleBetter_cubic_true s hkl w hs hhkl
    rcases lt_or_le (Vec3.dot hkl w) 0 with hneg | hpos
    · exact Or.inl hneg
    · right
      intro hcross
      obtain ⟨m, rfl⟩ := eq_smul_of_cross_eq_zero hkl w hcop hcross
      have hds : Vec3.dot hkl (Vec3.smul m hkl) = m * Vec3.dot hkl hkl := by
        simp only [Vec3.dot, Vec3.smul]
        ring
      rw [hds] at hpos hwv
      have hm0 : m ≠ 0 := by
        intro h0
        rw [h0, zero_mul] at hwv
        exact hwv rfl
      have hm1 : 1 ≤ m := by
        by_contra hcon
        push_neg at hcon
        have hmneg : m < 0 := by omega
        nlinarith [hd]
      rcases eq_or_lt_of_le hm1 with heq | hlt2
      · have hsm1 : Vec3.smul m hkl = hkl := by
          rw [← heq]
          apply Vec3.ext_comp <;> simp [Vec3.smul]
        rw [hsm1] at hw
        exact absurd (hbefore hkl hw) (lt_irrefl _)
      · have hm2 : 2 ≤ m := hlt2
        have hmem2 : Vec3.smul m hkl ∈ windowTriples n := by
          rw [hsplit]
          exact List.mem_append_left _ hw
        have hlt := rank_lt_smul n m hkl hm2 hhkl hmem2
        exact absurd (hbefore _ hw) (not_lt.mpr (le_of_lt hlt))
  · intro w hw
    exact angleBetter_cubic_false s hkl w hs hhkl

/-- C1: for every rational 3-vector v, composing the 3-to-4-index direction
conversion with the 4-to-3-index conversion returns v exactly (exact
rational arithmetic models "within floating tolerance"). -/
theorem claim_C1_vector_conversion_roundtrip (v : Vec3 ℚ) :
    vector4to3 (vector3to4 v) = v := by
  cases v with
  | mk a b c =>
    apply Vec3.ext_comp <;> simp only [vector3to4, vector4to3] <;> ring

/-- C2: for every centering setting s and every vector v, the primitive and
conventional conversions are exact two-sided inverses of one another. -/
theorem claim_C2_setting_conversion_roundtrip (s : Setting) (v : Vec3 ℚ) :
    vector_primitive_to_conventional (vector_conventional_to_primitive v s) s = v ∧
    vector_conventional_to_primitive (vector_primitive_to_conventional v s) s = v := by
  cases v with
  | mk a b c =>
    cases s <;>
      refine ⟨Vec3.ext_comp ?_ ?_ ?_, Vec3.ext_comp ?_ ?_ ?_⟩ <;>
        · simp only [vector_primitive_to_conventional, vector_conventional_to_primitive,
            primitiveToConventionalMat, conventionalToPrimitiveMat, Mat3.rowApply,
            Mat3.identity, Vec3.add, Vec3.smul]
          ring

/-- C5: vector3to4 returns [u1, v1, t, w] with u1 = (2u-v)/3, v1 = (2v-u)/3,
w unchanged, and t = -(u1+v1) computed after the internal conversion, without
rescaling to smallest integers; in particular [3,3,3] yields [1,1,-2,3]. -/
theorem claim_C5_vector3to4_definition :
    (∀ u v w : ℚ, vector3to4 ⟨u, v, w⟩ =
       ⟨(2*u - v)/3, (2*v - u)/3, -((2*u - v)/3 + (2*v - u)/3), w⟩) ∧
    (∀ p : Vec3 ℚ, (vector3to4 p).t = -((vector3to4 p).u + (vector3to4 p).v)) ∧
    vector3to4_list [3, 3, 3] = Except.ok [1, 1, -2, 3] := by
  refine ⟨fun u v w => rfl, fun p => rfl, ?_⟩
  norm_num [vector3to4_list, vector3to4]

/-- C7: vector3to4 fails with an InvalidIndexError for every input list whose
length is not 3. -/
theorem claim_C7_vector3to4_invalid_length (l : List ℚ) (h : l.length ≠ 3) :
    vector3to4_list l = Except.error MillerError.invalidIndexError := by
  rcases l with _ | ⟨a, _ | ⟨b, _ | ⟨c, _ | ⟨d, rest⟩⟩⟩⟩
  · rfl
  · rfl
  · rfl
  · exact absurd rfl h
  · rfl

/-- Witness for C7 at the concrete length-4 input [1,2,3,4]. -/
theorem claim_C7_witness :
    vector3to4_list [1, 2, 3, 4] = Except.error MillerError.invalidIndexError :=
  claim_C7_vector3to4_invalid_length [1, 2, 3, 4] (by decide)

theorem colApply_zero (M : Mat3) : M.colApply ⟨0, 0, 0⟩ = ⟨0, 0, 0⟩ := by
  simp [Mat3.colApply, Vec3.dot]

/-- C6: calling the free-surface basis solver on the degenerate all-zero
plane yields InvalidIndexError for every lattice, setting and option; the
validation error is produced before any search is performed (the proof only
evaluates the validation prefix, with the lattice and window left
abstract). -/
theorem claim_C6_degenerate_plane (L : Mat3) (so : Option Setting)
    (nopt : Option ℕ) (rh : Option Bool) :
    free_surface_basis [0, 0, 0] L so nopt rh = Except.error FSError.invalidIndexError := by
  have hplane : planeForSearch ⟨0, 0, 0⟩ so = ⟨0, 0, 0⟩ := by
    rcases so with _ | s
    · rfl
    · exact colApply_zero _
  have h0 : free_surface_basis [0, 0, 0] L so nopt rh =
      fsAfterParse ⟨0, 0, 0⟩ false L so nopt rh := rfl
  rw [h0]
  unfold fsAfterParse
  rw [hplane]
  rfl

set_option maxRecDepth 10000 in
/-- C4: for the default cubic unit box and plane (0,0,1), the solver returns
the in-plane vectors [1,0,0] and [0,1,0] and the out-of-plane vector
[0,0,1]. -/
theorem claim_C4_cubic_001_basis :
    free_surface_basis [0, 0, 1] (cubeBox 1) none none none =
      Except.ok [[1, 0, 0], [0, 1, 0], [0, 0, 1]] := by
  decide

/-- C10: every Miller-Bravais direction [u,v,t,w] produced as output, by
vector3to4 and by the solver in Miller-Bravais output mode, satisfies
t = -(u+v) exactly. -/
theorem claim_C10_bravais_t_invariant :
    (∀ p : Vec3 ℚ, (vector3to4 p).t = -((vector3to4 p).u + (vector3to4 p).v)) ∧
    (∀ (hkl : List ℚ) (L : Mat3) (so : Option Setting) (nopt : Option ℕ)
       (rows : List (List ℚ)),
      free_surface_basis hkl L so nopt (some true) = Except.ok rows →
      ∀ r ∈ rows, ∃ u v w : ℚ, r = [u, v, -(u + v), w]) := by
  constructor
  · intro p
    rfl
  · intro hkl L so nopt rows hok r hr
    unfold free_surface_basis at hok
    split at hok
    all_goals
      first
      | exact absurd hok (by simp)
      | · unfold fsAfterParse at hok
          split at hok
          · exact absurd hok (by simp)
          · split at hok
            · exact absurd hok (by simp)
            · simp only [Option.getD_some] at hok
              rw [if_pos trivial] at hok
              injection hok with hrows
              subst hrows
              simp only [List.mem_cons, List.not_mem_nil, or_false] at hr
              rcases hr with hr | hr | hr <;>
                · subst hr
                  exact ⟨_, _, _, rfl⟩

set_option maxRecDepth 10000 in
/-- Witness for C10 at the concrete hexagonal-output call on plane (0,0,1)
with the default cubic unit box. -/
theorem claim_C10_witness :
    ∀ r ∈ ([[2/3, -1/3, -1/3, 0], [-1/3, 2/3, -1/3, 0], [0, 0, 0, 1]] : List (List ℚ)),
      ∃ u v w : ℚ, r = [u, v, -(u + v), w] := by
  have hcall : free_surface_basis [0, 0, 1] (cubeBox 1) none none (some true) =
      Except.ok [[2/3, -1/3, -1/3, 0], [-1/3, 2/3, -1/3, 0], [0, 0, 0, 1]] := by
    have hcore : fsCore ⟨0, 0, 1⟩ (cubeBox 1) none =
        Except.ok (⟨1, 0, 0⟩, ⟨0, 1, 0⟩, ⟨0, 0, 1⟩) := by decide
    have hnorm : normalizePlane (planeForSearch ⟨0, 0, 1⟩ none) = some ⟨0, 0, 1⟩ := by decide
    have hstep : free_surface_basis [0, 0, 1] (cubeBox 1) none none (some true) =
        fsAfterParse ⟨0, 0, 1⟩ false (cubeBox 1) none none (some true) := rfl
    rw [hstep]
    unfold fsAfterParse
    rw [hnorm]
    simp only [hcore]
    norm_num [toRowList4, vector3to4, outConv, Vec3.toRat]
  exact claim_C10_bravais_t_invariant.2 [0, 0, 1] (cubeBox 1) none none
    [[2/3, -1/3, -1/3, 0], [-1/3, 2/3, -1/3, 0], [0, 0, 0, 1]] hcall

/-- C9: for a cubic lattice with positive edge and every coprime integer
plane (h,k,l) whose component magnitudes lie within the search window, the
out-of-plane vector returned by the free-surface basis solver equals (h,k,l)
itself: on a cubic metric the plane normal direction is the [hkl] direction,
and (h,k,l) is the first enumerated candidate realizing it. -/
theorem claim_C9_cubic_out_of_plane (s : ℚ) (hkl : Vec3 ℤ) (nopt : Option ℕ)
    (a b c : Vec3 ℤ) (hs : 0 < s) (hcop : gcd3 hkl = 1)
    (hwin : maxAbs3 hkl ≤ fsWindow hkl nopt)
    (hok : fsCore hkl (cubeBox s) nopt = Except.ok (a, b, c)) :
    c = hkl := by
  obtain ⟨t1r, t2r, b0, -, -, -, -, hsc⟩ :=
    fsCore_ok_elim hkl (cubeBox s) nopt a b c hok
  rw [selectC_cubic s hkl (fsWindow hkl nopt) hs hcop hwin] at hsc
  injection hsc with h
  exact h.symm

set_option maxRecDepth 10000 in
/-- Witness for C9 at the cubic unit box and plane (1,1,1). -/
theorem claim_C9_witness : (⟨1, 1, 1⟩ : Vec3 ℤ) = ⟨1, 1, 1⟩ :=
  claim_C9_cubic_out_of_plane 1 ⟨1, 1, 1⟩ none ⟨-1, 1, 0⟩ ⟨-1, 0, 1⟩ ⟨1, 1, 1⟩
    (by norm_num) (by decide) (by decide) (by decide)

end Atomman
